import Mathlib

/-!
Verification of the Searchgrep indexing and retrieval engine against its
specification.  The TypeScript source (`src/lib/store.ts`, `src/lib/utils.ts`)
is shallowly embedded below: JavaScript strings become `List Char` (split,
trim and length operate on character sequences, mirroring the JS string
methods used by the code), JavaScript numbers used as character counts and
line numbers become `ℤ`, and scores become `ℚ`.  The external embedder and
the two transcendental scoring primitives (cosine similarity, which needs a
square root, and the BM25 idf, which needs a logarithm) are passed in as
function parameters: every claim below is proved for all of their values.
`Array.prototype.sort` with comparator `(a, b) => b.score - a.score` is a
stable descending sort (ES2019), embedded as `List.mergeSort` with the
corresponding boolean relation.
-/

namespace Sgrep

/-- Str is the embedding of a JavaScript string: its sequence of characters. -/
abbrev Str := List Char

/-- Character class of the JavaScript regex `\s` (also the set trimmed by
`String.prototype.trim`). -/
def jsWhitespace (c : Char) : Bool :=
  c == ' ' || c == '\t' || c == '\n' || c == '\u000B' || c == '\u000C' || c == '\r' ||
  c == '\u00A0' || c == '\u1680' || ('\u2000' ≤ c && c ≤ '\u200A') ||
  c == '\u2028' || c == '\u2029' || c == '\u202F' || c == '\u205F' ||
  c == '\u3000' || c == '\uFEFF'

/-- Character class of the JavaScript regex `\w`. -/
def isWordChar (c : Char) : Bool :=
  ('a' ≤ c && c ≤ 'z') || ('A' ≤ c && c ≤ 'Z') || ('0' ≤ c && c ≤ '9') || c == '_'

/-- Embedding of `String.prototype.trim`. -/
def jsTrim (l : Str) : Str :=
  ((l.dropWhile jsWhitespace).reverse.dropWhile jsWhitespace).reverse

/-- Embedding of `content.split("\n")`: split on every newline character;
the result always has at least one (possibly empty) element. -/
def splitNl : Str → List Str
  | [] => [[]]
  | c :: cs =>
    if c = '\n' then [] :: splitNl cs
    else
      match splitNl cs with
      | [] => [[c]]
      | l :: ls => (c :: l) :: ls

/-- Embedding of `lines.join("\n")`. -/
def joinNl : List Str → Str
  | [] => []
  | [l] => l
  | l :: ls => l ++ '\n' :: joinNl ls

/-- Embedding of `line.trim().startsWith("//")` after trimming. -/
def startsLineComment : Str → Bool
  | '/' :: '/' :: _ => true
  | _ => false

/-- Embedding of `getIndentLevel`: length of the leading `\s*` match. -/
def getIndentLevel (line : Str) : Nat :=
  (line.takeWhile jsWhitespace).length

/-! Backtracking prefix matchers for the anchored regexes of
`codeBlockPatterns`.  A matcher sends an input to the list of remainders of
every way some prefix of the input can match, so a regex `test` succeeds
exactly when the list is non-empty.  All six source patterns anchor every
alternative at `^`, so prefix matching is exactly `RegExp.test`. -/

/-- Matcher is a nondeterministic prefix parser: all possible remainders. -/
def Matcher := Str → List Str

/-- Matcher for a literal character sequence. -/
def mLitChars : Str → Str → List Str
  | [], s => [s]
  | _ :: _, [] => []
  | c :: cs, x :: xs => if x = c then mLitChars cs xs else []

/-- Matcher for a literal string. -/
def mLit (w : String) : Matcher := mLitChars w.toList

/-- Sequencing of two matchers. -/
def mSeq (a b : Matcher) : Matcher := fun s => (a s).flatMap b

/-- Alternation of two matchers (regex `|`). -/
def mAlt (a b : Matcher) : Matcher := fun s => a s ++ b s

/-- Optional matcher (regex `?`). -/
def mOpt (a : Matcher) : Matcher := fun s => s :: a s

/-- One-or-more characters of a class (regex `+` on a character class). -/
def mPlusPred (p : Char → Bool) : Str → List Str
  | [] => []
  | x :: rest => if p x then rest :: mPlusPred p rest else []

/-- Zero-or-more characters of a class (regex `*` on a character class). -/
def mStarPred (p : Char → Bool) : Matcher := fun s => s :: mPlusPred p s

/-- Exactly one character of a class. -/
def mCharPred (p : Char → Bool) : Matcher
  | [] => []
  | x :: rest => if p x then [rest] else []

/-- Matcher for `\s+`. -/
def wsPlus : Matcher := fun s => mPlusPred jsWhitespace s

/-- Matcher for `\s*`. -/
def wsStar : Matcher := mStarPred jsWhitespace

/-- Matcher for `\w+`. -/
def wordPlus : Matcher := fun s => mPlusPred isWordChar s

/-- Matcher for `\([^)]*\)`. -/
def parenGroupStar : Matcher :=
  mSeq (mLit "(") (mSeq (mStarPred (fun c => c != ')')) (mLit ")"))

/-- Matcher for `\([^)]+\)`. -/
def parenGroupPlus : Matcher :=
  mSeq (mLit "(") (mSeq (fun s => mPlusPred (fun c => c != ')') s) (mLit ")"))

/-- JavaScript/TypeScript pattern:
`^(?:export\s+)?(?:async\s+)?(?:function\s+\w+|const\s+\w+\s*=\s*(?:async\s+)?(?:\([^)]*\)|[^=])\s*=>|class\s+\w+|interface\s+\w+|type\s+\w+\s*=)`. -/
def pat1 : Matcher :=
  mSeq (mOpt (mSeq (mLit "export") wsPlus))
    (mSeq (mOpt (mSeq (mLit "async") wsPlus))
      (mAlt (mSeq (mLit "function") (mSeq wsPlus wordPlus))
        (mAlt
          (mSeq (mLit "const")
            (mSeq wsPlus
              (mSeq wordPlus
                (mSeq wsStar
                  (mSeq (mLit "=")
                    (mSeq wsStar
                      (mSeq (mOpt (mSeq (mLit "async") wsPlus))
                        (mSeq (mAlt parenGroupStar (mCharPred (fun c => c != '=')))
                          (mSeq wsStar (mLit "=>"))))))))))
          (mAlt (mSeq (mLit "class") (mSeq wsPlus wordPlus))
            (mAlt (mSeq (mLit "interface") (mSeq wsPlus wordPlus))
              (mSeq (mLit "type") (mSeq wsPlus (mSeq wordPlus (mSeq wsStar (mLit "="))))))))))

/-- Python pattern: `^(?:async\s+)?def\s+\w+|^class\s+\w+`. -/
def pat2 : Matcher :=
  mAlt
    (mSeq (mOpt (mSeq (mLit "async") wsPlus)) (mSeq (mLit "def") (mSeq wsPlus wordPlus)))
    (mSeq (mLit "class") (mSeq wsPlus wordPlus))

/-- Go pattern: `^func\s+(?:\([^)]+\)\s+)?\w+`. -/
def pat3 : Matcher :=
  mSeq (mLit "func") (mSeq wsPlus (mSeq (mOpt (mSeq parenGroupPlus wsPlus)) wordPlus))

/-- Rust pattern: `^(?:pub\s+)?(?:async\s+)?fn\s+\w+|^impl\s+`. -/
def pat4 : Matcher :=
  mAlt
    (mSeq (mOpt (mSeq (mLit "pub") wsPlus))
      (mSeq (mOpt (mSeq (mLit "async") wsPlus)) (mSeq (mLit "fn") (mSeq wsPlus wordPlus))))
    (mSeq (mLit "impl") wsPlus)

/-- Java/C# pattern:
`^(?:public|private|protected)?\s*(?:static\s+)?(?:async\s+)?(?:class|interface|void|int|string|bool|\w+)\s+\w+\s*[({]`. -/
def pat5 : Matcher :=
  mSeq (mOpt (mAlt (mLit "public") (mAlt (mLit "private") (mLit "protected"))))
    (mSeq wsStar
      (mSeq (mOpt (mSeq (mLit "static") wsPlus))
        (mSeq (mOpt (mSeq (mLit "async") wsPlus))
          (mSeq
            (mAlt (mLit "class")
              (mAlt (mLit "interface")
                (mAlt (mLit "void")
                  (mAlt (mLit "int") (mAlt (mLit "string") (mAlt (mLit "bool") wordPlus))))))
            (mSeq wsPlus (mSeq wordPlus (mSeq wsStar (mCharPred (fun c => c == '(' || c == '{')))))))))

/-- Ruby pattern: `^(?:def\s+\w+|class\s+\w+|module\s+\w+)`. -/
def pat6 : Matcher :=
  mAlt (mSeq (mLit "def") (mSeq wsPlus wordPlus))
    (mAlt (mSeq (mLit "class") (mSeq wsPlus wordPlus))
      (mSeq (mLit "module") (mSeq wsPlus wordPlus)))

/-- Matcher success is regex `test`. -/
def mTest (m : Matcher) (s : Str) : Bool := !(m s).isEmpty

/-- Embedding of `isCodeBlockStart`: the trimmed line is tested against the
six `codeBlockPatterns` regexes. -/
def isCodeBlockStart (line : Str) : Bool :=
  let t := jsTrim line
  mTest pat1 t || mTest pat2 t || mTest pat3 t || mTest pat4 t ||
  mTest pat5 t || mTest pat6 t

/-! Embedding of the chunker (`chunkText`, `chunkByCodeBlocks`,
`chunkByLines`).  Loop indices are 0-based naturals as in the source;
line numbers and character-count parameters are integers (JS numbers). -/

/-- RawChunk is one `{content, lineStart, lineEnd}` record produced by the
chunker. -/
structure RawChunk where
  content : Str
  lineStart : ℤ
  lineEnd : ℤ
deriving DecidableEq

/-- CState is the mutable state of the `chunkByCodeBlocks` loop. -/
structure CState where
  cur : List Str
  curStart : ℤ
  blockIndent : ℤ
  inBlock : Bool
  acc : List RawChunk
deriving DecidableEq

/-- Stage of the `chunkByCodeBlocks` loop body that starts a new block:
flush the accumulator (skipping a blank chunk), then record the block
indent. -/
def codeStep1 (i : ℕ) (line : Str) (st : CState) : CState :=
  if isCodeBlockStart line && !st.inBlock then
    let st' :=
      if 0 < st.cur.length then
        { st with
          acc := st.acc ++
            (if 0 < (jsTrim (joinNl st.cur)).length then
              [⟨joinNl st.cur, st.curStart, st.curStart + st.cur.length - 1⟩]
            else []),
          cur := [], curStart := (i : ℤ) + 1 }
      else st
    { st' with inBlock := true, blockIndent := (getIndentLevel line : ℤ) }
  else st

/-- Stage of the `chunkByCodeBlocks` loop body that detects a block end
(after the current line has been pushed onto the accumulator). -/
def codeStep2 (i : ℕ) (line : Str) (st : CState) : CState :=
  if st.inBlock && 0 < (jsTrim line).length &&
      (getIndentLevel line : ℤ) ≤ st.blockIndent &&
      st.curStart - 1 < (i : ℤ) && !isCodeBlockStart line then
    if jsTrim line = "\x7d".toList || jsTrim line = "\x7d;".toList ||
        jsTrim line = "end".toList ||
        ((getIndentLevel line : ℤ) < st.blockIndent &&
          !startsLineComment (jsTrim line)) then
      ⟨[], (i : ℤ) + 2, -1, false,
        st.acc ++ [⟨joinNl st.cur, st.curStart, st.curStart + st.cur.length - 1⟩]⟩
    else st
  else st

/-- Stage of the `chunkByCodeBlocks` loop body that force-flushes an
accumulator that has reached `maxChunkSize` characters. -/
def codeStep3 (sz : ℤ) (i : ℕ) (st : CState) : CState :=
  if sz ≤ ((joinNl st.cur).length : ℤ) then
    ⟨[], (i : ℤ) + 2, -1, false,
      st.acc ++ [⟨joinNl st.cur, st.curStart, st.curStart + st.cur.length - 1⟩]⟩
  else st

/-- Embedding of `currentChunk.push(line)`. -/
def pushLine (line : Str) (st : CState) : CState :=
  ⟨st.cur ++ [line], st.curStart, st.blockIndent, st.inBlock, st.acc⟩

@[simp] lemma pushLine_cur (line : Str) (st : CState) :
    (pushLine line st).cur = st.cur ++ [line] := rfl

@[simp] lemma pushLine_curStart (line : Str) (st : CState) :
    (pushLine line st).curStart = st.curStart := rfl

@[simp] lemma pushLine_blockIndent (line : Str) (st : CState) :
    (pushLine line st).blockIndent = st.blockIndent := rfl

@[simp] lemma pushLine_inBlock (line : Str) (st : CState) :
    (pushLine line st).inBlock = st.inBlock := rfl

@[simp] lemma pushLine_acc (line : Str) (st : CState) :
    (pushLine line st).acc = st.acc := rfl

/-- One iteration of the `chunkByCodeBlocks` loop at 0-based index `i`:
maybe start a block (flushing the accumulator), push the line, maybe end
the block, maybe force-flush an oversized accumulator. -/
def codeStep (sz : ℤ) (i : ℕ) (line : Str) (st : CState) : CState :=
  codeStep3 sz i (codeStep2 i line (pushLine line (codeStep1 i line st)))

/-- Loop of `chunkByCodeBlocks`, followed by the residual flush (skipped if
the residue is blank). -/
def chunkByCodeBlocksGo (sz : ℤ) : List Str → ℕ → CState → List RawChunk
  | [], _, st =>
    if 0 < st.cur.length && 0 < (jsTrim (joinNl st.cur)).length then
      st.acc ++ [⟨joinNl st.cur, st.curStart, st.curStart + st.cur.length - 1⟩]
    else st.acc
  | line :: rest, i, st => chunkByCodeBlocksGo sz rest (i + 1) (codeStep sz i line st)

/-- Embedding of `chunkByCodeBlocks`. -/
def chunkByCodeBlocks (lines : List Str) (maxChunkSize : ℤ) : List RawChunk :=
  chunkByCodeBlocksGo maxChunkSize lines 0 ⟨[], 1, -1, false, []⟩

/-- Embedding of `arr.slice(-k)` for an integer `k`. -/
def jsSliceNeg {α : Type} (l : List α) (k : ℤ) : List α :=
  let a : ℤ := -k
  let start : ℤ := if a < 0 then max ((l.length : ℤ) + a) 0 else min a (l.length : ℤ)
  l.drop start.toNat

/-- Loop of `chunkByLines`: accumulate lines, flush when the running
character count reaches `chunkSize` or at the last line, then retain a
trailing overlap slice. -/
def chunkByLinesGo (chunkSize overlap : ℤ) :
    List Str → List Str → ℤ → ℤ → List RawChunk → List RawChunk
  | [], _, _, _, acc => acc
  | line :: rest, cur, curStart, cc, acc =>
    let cur' := cur ++ [line]
    let cc' := cc + line.length + 1
    if chunkSize ≤ cc' || rest = [] then
      let acc' := acc ++ [⟨joinNl cur', curStart, curStart + cur'.length - 1⟩]
      let overlapLines : ℤ := Rat.ceil ((overlap : ℚ) / ((cc' : ℚ) / (cur'.length : ℚ)))
      let keepLines : ℤ := min overlapLines (cur'.length : ℤ)
      let kept := jsSliceNeg cur' keepLines
      chunkByLinesGo chunkSize overlap rest kept
        (curStart + kept.length - keepLines + 1) ((joinNl kept).length : ℤ) acc'
    else
      chunkByLinesGo chunkSize overlap rest cur' curStart cc' acc

/-- Embedding of `chunkByLines`. -/
def chunkByLines (lines : List Str) (chunkSize overlap : ℤ) : List RawChunk :=
  chunkByLinesGo chunkSize overlap lines [] 1 0 []

/-- Embedding of `chunkText`: code-aware chunking first, line-based
fallback when it produced no chunks. -/
def chunkText (content : Str) (chunkSize overlap : ℤ) : List RawChunk :=
  let lines := splitNl content
  let codeChunks := chunkByCodeBlocks lines chunkSize
  if 0 < codeChunks.length then codeChunks
  else chunkByLines lines chunkSize overlap

/-! Embedding of the vector store (`VectorStore` of `store.ts`).  The
embedder is a function parameter (`getEmbeddings` maps it over the batch);
`Date.now()` at persist time is the explicit `now` argument; the second
component of `uploadFile`'s result counts how many texts were sent to the
embedder (0 on the early-return path), and the second component of
`deleteFile`'s result records whether `saveStore` ran. -/

/-- ChunkData is a stored chunk: text, embedding vector, line range. -/
structure ChunkData where
  content : Str
  embedding : List ℚ
  lineStart : ℤ
  lineEnd : ℤ
deriving DecidableEq

/-- StoredDocument mirrors the `StoredDocument` record of the source. -/
structure StoredDocument where
  id : Str
  path : Str
  hash : Str
  content : Str
  embedding : List ℚ
  lines : ℕ
  size : ℕ
  lastModified : ℕ
  chunks : List ChunkData
deriving DecidableEq

/-- StoreMetadata mirrors `StoreData.metadata`. -/
structure StoreMetadata where
  name : Str
  created : ℕ
  updated : ℕ
deriving DecidableEq

/-- StoreData mirrors the persisted `StoreData` record. -/
structure StoreData where
  documents : List StoredDocument
  metadata : StoreMetadata
deriving DecidableEq

/-- Combined embedding of the `findIndex`/hash-check/`splice` preamble of
`uploadFile`: `none` means the early return (a document with this path and
an equal hash exists); `some ds` is the document list with the first
document of this path spliced out. -/
def uploadCheck : List StoredDocument → Str → Str → Option (List StoredDocument)
  | [], _, _ => some []
  | d :: ds, path, hash =>
    if d.path = path then
      if d.hash = hash then none else some ds
    else
      match uploadCheck ds path hash with
      | none => none
      | some ds' => some (d :: ds')

/-- Prefix `File: {path}\n\n` prepended to embedded texts. -/
def filePrefixed (path text : Str) : Str :=
  "File: ".toList ++ path ++ "\n\n".toList ++ text

/-- The document assembled by `uploadFile`: chunk the content, embed the
prefixed chunk texts in one batch, embed the prefixed 2 KB file prefix,
and fill in the record (`lines` is `content.split("\\n").length`). -/
def uploadedDoc (embed : Str → List ℚ) (path content hash : Str)
    (size lastModified : ℕ) : StoredDocument :=
  let textChunks := chunkText content 500 100
  let chunkContents := textChunks.map (fun c => filePrefixed path c.content)
  let embeddings := chunkContents.map embed
  let chunks := List.zipWith
    (fun (c : RawChunk) e => ChunkData.mk c.content e c.lineStart c.lineEnd)
    textChunks embeddings
  let fullEmbedding := embed (filePrefixed path (content.take 2000))
  ⟨path ++ '-' :: hash, path, hash, content, fullEmbedding,
    (splitNl content).length, size, lastModified, chunks⟩

/-- Embedding of `uploadFile`.  Returns the new store and the number of
texts embedded (`0` exactly when the equal-hash early return fired, in
which case the store is returned unchanged and nothing is persisted; on
an actual upload the chunk batch plus the whole-file embedding). -/
def uploadFile (s : StoreData) (embed : Str → List ℚ) (now : ℕ)
    (path content hash : Str) (size lastModified : ℕ) : StoreData × ℕ :=
  match uploadCheck s.documents path hash with
  | none => (s, 0)
  | some docs =>
    (⟨docs ++ [uploadedDoc embed path content hash size lastModified],
      ⟨s.metadata.name, s.metadata.created, now⟩⟩,
      (chunkText content 500 100).length + 1)

/-- Embedding of the `findIndex`/`splice` of `deleteFile`: `some ds` is the
list with the first document of this path removed, `none` means no such
document. -/
def removeFirstDoc : List StoredDocument → Str → Option (List StoredDocument)
  | [], _ => none
  | d :: ds, path =>
    if d.path = path then some ds else (removeFirstDoc ds path).map (d :: ·)

/-- Embedding of `deleteFile`: remove the document if present and persist
(the Bool records whether `saveStore` ran; the no-document branch returns
without writing). -/
def deleteFile (s : StoreData) (now : ℕ) (path : Str) : StoreData × Bool :=
  match removeFirstDoc s.documents path with
  | some docs => (⟨docs, ⟨s.metadata.name, s.metadata.created, now⟩⟩, true)
  | none => (s, false)

/-- FileMetadata is the lightweight projection returned by `listFiles`. -/
structure FileMetadata where
  path : Str
  hash : Str
  lines : ℕ
  size : ℕ
  lastModified : ℕ
deriving DecidableEq

/-- Embedding of `listFiles`. -/
def listFiles (s : StoreData) : List FileMetadata :=
  s.documents.map (fun d => ⟨d.path, d.hash, d.lines, d.size, d.lastModified⟩)

/-! Embedding of the retrieval pipeline (`search`, `rrfFusion` and the
per-path dedup).  The dense score of a chunk against the embedded query
(`cosineSimilarity(queryEmbedding, chunk.embedding)`, a real-valued
function of the external embedder's output) is the function parameter
`denseScore`; the BM25 ranked list (`bm25Search`, whose idf needs a
logarithm) is the list parameter `bm25Results`.  All theorems below hold
for every value of both. -/

/-- Cand is one `{path, score, chunk, doc}` candidate record. -/
structure Cand where
  path : Str
  score : ℚ
  chunk : ChunkData
  doc : StoredDocument
deriving DecidableEq

/-- SearchResult mirrors the source's `SearchResult` (with all optional
fields populated, as `search` does). -/
structure SearchResult where
  path : Str
  score : ℚ
  content : Str
  lineStart : ℤ
  lineEnd : ℤ
  chunk : Str
deriving DecidableEq

/-- Boolean comparison of the stable sort `(a, b) => b.score - a.score`
on candidates. -/
def candLE (a b : Cand) : Bool := b.score ≤ a.score

/-- Boolean comparison of the stable sort `(a, b) => b.score - a.score`
on search results. -/
def resLE (a b : SearchResult) : Bool := b.score ≤ a.score

/-- FEntry is one value of the `scores` map of `rrfFusion`. -/
structure FEntry where
  score : ℚ
  chunk : ChunkData
  doc : StoredDocument
deriving DecidableEq

/-- Embedding of the fusion key `` `${path}:${chunk.lineStart}` ``. -/
def keyOf (path : Str) (ls : ℤ) : Str := path ++ ':' :: (toString ls).toList

/-- Embedding of the `scores.get`/`existing.score += rrfScore`/`scores.set`
step of `rrfFusion`: a JS `Map` is an insertion-ordered association list;
updating an existing key keeps its position and first-inserted chunk/doc. -/
def mapAddScore : List (Str × FEntry) → Str → ℚ → ChunkData → StoredDocument →
    List (Str × FEntry)
  | [], key, s, ch, d => [(key, ⟨s, ch, d⟩)]
  | (q, e) :: rest, key, s, ch, d =>
    if q = key then (q, ⟨e.score + s, e.chunk, e.doc⟩) :: rest
    else (q, e) :: mapAddScore rest key s ch d

/-- One `forEach` pass of `rrfFusion`, with the 0-based rank threaded
explicitly: add `1/(k + rank + 1)` for the result at each rank. -/
def rrfAddGo (k : ℚ) : List Cand → ℕ → List (Str × FEntry) → List (Str × FEntry)
  | [], _, scores => scores
  | r :: rs, rank, scores =>
    rrfAddGo k rs (rank + 1)
      (mapAddScore scores (keyOf r.path r.chunk.lineStart)
        (1 / (k + (rank : ℚ) + 1)) r.chunk r.doc)

/-- One `forEach` pass of `rrfFusion` starting at rank 0. -/
def rrfAdd (k : ℚ) (results : List Cand) (scores : List (Str × FEntry)) :
    List (Str × FEntry) :=
  rrfAddGo k results 0 scores

/-- Embedding of `rrfFusion` (`k = 60` at the call site): accumulate both
rank lists into the keyed score map, then sort descending. -/
def rrfFusion (vectorResults bm25Results : List Cand) (k : ℚ) : List Cand :=
  let scores := rrfAdd k bm25Results (rrfAdd k vectorResults [])
  (scores.map (fun e => Cand.mk e.2.doc.path e.2.score e.2.chunk e.2.doc)).mergeSort candLE

/-- Embedding of `seenPaths.get`. -/
def lookupSeen (seen : List (Str × ℚ)) (p : Str) : Option ℚ :=
  (seen.find? (fun e => e.1 == p)).map (·.2)

/-- Embedding of `seenPaths.set`. -/
def setSeen : List (Str × ℚ) → Str → ℚ → List (Str × ℚ)
  | [], p, v => [(p, v)]
  | (q, w) :: rest, p, v =>
    if q = p then (q, v) :: rest else (q, w) :: setSeen rest p v

/-- Embedding of the `findIndex`/`splice` on `uniqueResults` (removes the
first result with the given path, if any). -/
def removeFirstSR : List SearchResult → Str → List SearchResult
  | [], _ => []
  | r :: rest, p => if r.path = p then rest else r :: removeFirstSR rest p

/-- The SearchResult pushed for a candidate. -/
def toSearchResult (c : Cand) : SearchResult :=
  ⟨c.path, c.score, c.doc.content, c.chunk.lineStart, c.chunk.lineEnd, c.chunk.content⟩

/-- Embedding of the per-path dedup loop of `search` (including the break
once `2 * topK` unique paths are collected, checked every iteration). -/
def dedupGo (topK : ℕ) : List Cand → List (Str × ℚ) → List SearchResult →
    List SearchResult
  | [], _, uniq => uniq
  | c :: rest, seen, uniq =>
    match lookupSeen seen c.path with
    | none =>
      let uniq' := uniq ++ [toSearchResult c]
      let seen' := setSeen seen c.path c.score
      if topK * 2 ≤ uniq'.length then uniq' else dedupGo topK rest seen' uniq'
    | some s =>
      if s < c.score then
        let uniq' := removeFirstSR uniq c.path ++ [toSearchResult c]
        let seen' := setSeen seen c.path c.score
        if topK * 2 ≤ uniq'.length then uniq' else dedupGo topK rest seen' uniq'
      else
        if topK * 2 ≤ uniq.length then uniq else dedupGo topK rest seen uniq

/-- The candidate list entering the dedup loop of `search`: dense scan of
every chunk, sorted descending, top `3 * topK`, then (in hybrid mode) RRF
fusion with the BM25 list. -/
def searchCandidates (denseScore : ChunkData → ℚ) (bm25Results : List Cand)
    (documents : List StoredDocument) (topK : ℕ) (hybrid : Bool) : List Cand :=
  let vectorResults :=
    (documents.map (fun d => d.chunks.map (fun ch => Cand.mk d.path (denseScore ch) ch d))).flatten
  let topVectorResults := (vectorResults.mergeSort candLE).take (topK * 3)
  if hybrid then rrfFusion topVectorResults bm25Results 60 else topVectorResults

/-- Embedding of `search` on its (fileType-filtered) document list: empty
store short-circuits; otherwise dedup the fused candidates, sort
descending, truncate to `topK`. -/
def search (denseScore : ChunkData → ℚ) (bm25Results : List Cand)
    (documents : List StoredDocument) (topK : ℕ) (hybrid : Bool) : List SearchResult :=
  if documents.isEmpty then []
  else
    ((dedupGo topK (searchCandidates denseScore bm25Results documents topK hybrid) [] []).mergeSort
      resLE).take topK

/-! Embedding of the synchronizer (`syncFiles` of `utils.ts`).  The content
hash (`hashContent`, an external xxhash/sha256 call) is the function
parameter `hash`.  Per-file uploads run under a concurrency semaphore in
the source; their completion order does not affect the final store for
distinct paths, and they are folded sequentially here.  The pure embedding
has no failing uploads, so the `errors` array is always empty and is
omitted from the result. -/

/-- FileInfo is one `{path, content, size, lastModified}` walker record. -/
structure FileInfo where
  path : Str
  content : Str
  size : ℕ
  lastModified : ℕ
deriving DecidableEq

/-- SyncResult is the counts part of the source's `SyncResult`. -/
structure SyncResult where
  uploaded : ℕ
  deleted : ℕ
  skipped : ℕ
deriving DecidableEq

/-- Embedding of `Map.set` for the `path → hash` store map. -/
def mapSet : List (Str × Str) → Str → Str → List (Str × Str)
  | [], p, v => [(p, v)]
  | (q, w) :: rest, p, v =>
    if q = p then (q, v) :: rest else (q, w) :: mapSet rest p v

/-- Embedding of building `storeFileMap` from `store.listFiles()`. -/
def buildMap (files : List FileMetadata) : List (Str × Str) :=
  files.foldl (fun m f => mapSet m f.path f.hash) []

/-- Embedding of `storeFileMap.get`. -/
def mapGet (m : List (Str × Str)) (p : Str) : Option Str :=
  (m.find? (fun e => e.1 == p)).map (·.2)

/-- Embedding of the comparing phase: split the local files into
`(toUpload, toSkip)`, carrying the freshly computed hash with each upload. -/
def diffFiles (stored : List (Str × Str)) (hash : Str → Str) :
    List FileInfo → List (FileInfo × Str) × List Str
  | [] => ([], [])
  | f :: fs =>
    let r := diffFiles stored hash fs
    let h := hash f.content
    match mapGet stored f.path with
    | some hs => if hs = h then (r.1, f.path :: r.2) else ((f, h) :: r.1, r.2)
    | none => ((f, h) :: r.1, r.2)

/-- Embedding of `syncFiles` (non-dry-run): diff by content hash, upload
the changed files, delete the indexed paths that are gone locally, and
report the counts. -/
def syncFiles (s : StoreData) (hash : Str → Str) (embed : Str → List ℚ)
    (now : ℕ) (localFiles : List FileInfo) : StoreData × SyncResult :=
  let storeFileMap := buildMap (listFiles s)
  let diff := diffFiles storeFileMap hash localFiles
  let localPathSet := localFiles.map (·.path)
  let toDelete := (storeFileMap.map (·.1)).filter (fun p => !(localPathSet.contains p))
  let s1 := diff.1.foldl
    (fun st fh =>
      (uploadFile st embed now fh.1.path fh.1.content fh.2 fh.1.size fh.1.lastModified).1)
    s
  let s2 := toDelete.foldl (fun st p => (deleteFile st now p).1) s1
  (s2, ⟨diff.1.length, toDelete.length, diff.2.length⟩)

/-- The hash the store currently records for a path (`none` when the path
is not indexed); the content-hash comparison of the next sync reads
exactly this value through `storeFileMap`. -/
def docHash (s : StoreData) (p : Str) : Option Str :=
  (s.documents.find? (fun d => d.path == p)).map (fun d => d.hash)

/-! Helper lemmas about `uploadCheck`, `removeFirstDoc` and small
evaluations shared by several theorems. -/

/-- An empty store (as `createEmptyStore` builds one, timestamps 0). -/
def emptyStore : StoreData := ⟨[], ⟨"searchgrep".toList, 0, 0⟩⟩

lemma uploadCheck_some_no_path : ∀ {l : List StoredDocument} {p h : Str}
    {l' : List StoredDocument}, (l.map (fun d => d.path)).Nodup →
    uploadCheck l p h = some l' → ∀ d ∈ l', d.path ≠ p := by
  intro l
  induction l with
  | nil =>
    intro p h l' _ hu d hd
    have hl : [] = l' := by simpa [uploadCheck] using hu
    rw [← hl] at hd
    simp at hd
  | cons d0 ds ih =>
    intro p h l' hnd hu d hd
    rw [List.map_cons, List.nodup_cons] at hnd
    by_cases hp : d0.path = p
    · by_cases hh : d0.hash = h
      · simp [uploadCheck, hp, hh] at hu
      · have hds : ds = l' := by simpa [uploadCheck, hp, hh] using hu
        rw [← hds] at hd
        intro hdp
        apply hnd.1
        rw [hp, ← hdp]
        exact List.mem_map_of_mem _ hd
    · cases hrec : uploadCheck ds p h with
      | none => simp [uploadCheck, hp, hrec] at hu
      | some ds' =>
        have hl : d0 :: ds' = l' := by simpa [uploadCheck, hp, hrec] using hu
        rw [← hl] at hd
        rcases List.mem_cons.mp hd with h1 | h1
        · subst h1; exact hp
        · exact ih hnd.2 hrec d h1

lemma uploadCheck_all_miss : ∀ {l : List StoredDocument} {p h : Str},
    (∀ d ∈ l, d.path ≠ p) → uploadCheck l p h = some l := by
  intro l
  induction l with
  | nil => intro p h _; rfl
  | cons d0 ds ih =>
    intro p h hmiss
    have hp : d0.path ≠ p := hmiss d0 (List.mem_cons_self d0 ds)
    simp only [uploadCheck, if_neg hp]
    rw [ih (fun d hd => hmiss d (List.mem_cons_of_mem _ hd))]

lemma uploadCheck_append_hit : ∀ {l : List StoredDocument} {p h : Str}
    (nd : StoredDocument), (∀ d ∈ l, d.path ≠ p) → nd.path = p → nd.hash = h →
    uploadCheck (l ++ [nd]) p h = none := by
  intro l
  induction l with
  | nil =>
    intro p h nd _ hpath hhash
    simp [uploadCheck, hpath, hhash]
  | cons d0 ds ih =>
    intro p h nd hmiss hpath hhash
    have hp : d0.path ≠ p := hmiss d0 (List.mem_cons_self d0 ds)
    have hrec := ih nd (fun d hd => hmiss d (List.mem_cons_of_mem _ hd)) hpath hhash
    simp [uploadCheck, hp, hrec]

lemma uploadFile_of_check_some {s : StoreData} {p h : Str}
    {docs : List StoredDocument} (embed : Str → List ℚ) (now : ℕ) (x : Str)
    (sz mt : ℕ) (huc : uploadCheck s.documents p h = some docs) :
    uploadFile s embed now p x h sz mt =
      (⟨docs ++ [uploadedDoc embed p x h sz mt],
        ⟨s.metadata.name, s.metadata.created, now⟩⟩,
        (chunkText x 500 100).length + 1) := by
  simp [uploadFile, huc]

lemma uploadFile_of_check_none {s : StoreData} {p h : Str}
    (embed : Str → List ℚ) (now : ℕ) (x : Str) (sz mt : ℕ)
    (huc : uploadCheck s.documents p h = none) :
    uploadFile s embed now p x h sz mt = (s, 0) := by
  simp [uploadFile, huc]

lemma uploadedDoc_path (embed : Str → List ℚ) (p x h : Str) (sz mt : ℕ) :
    (uploadedDoc embed p x h sz mt).path = p := rfl

lemma uploadedDoc_hash (embed : Str → List ℚ) (p x h : Str) (sz mt : ℕ) :
    (uploadedDoc embed p x h sz mt).hash = h := rfl

lemma removeFirstDoc_all_miss : ∀ {l : List StoredDocument} {p : Str},
    (∀ d ∈ l, d.path ≠ p) → removeFirstDoc l p = none := by
  intro l
  induction l with
  | nil => intro p _; rfl
  | cons d0 ds ih =>
    intro p hmiss
    have hp : d0.path ≠ p := hmiss d0 (List.mem_cons_self d0 ds)
    simp only [removeFirstDoc, if_neg hp]
    rw [ih (fun d hd => hmiss d (List.mem_cons_of_mem _ hd))]
    rfl

lemma removeFirstDoc_isSome_iff : ∀ {l : List StoredDocument} {p : Str},
    (removeFirstDoc l p).isSome ↔ ∃ d ∈ l, d.path = p := by
  intro l
  induction l with
  | nil => intro p; simp [removeFirstDoc]
  | cons d0 ds ih =>
    intro p
    by_cases hp : d0.path = p
    · simp [removeFirstDoc, hp]
    · cases hrd : removeFirstDoc ds p with
      | none =>
        have hih := @ih p
        rw [hrd] at hih
        simp only [Option.isSome_none, Bool.false_eq_true, false_iff] at hih
        simp only [removeFirstDoc, if_neg hp, hrd, Option.map_none',
          Option.isSome_none, Bool.false_eq_true, false_iff]
        rintro ⟨d, hd, hdp⟩
        rcases List.mem_cons.mp hd with h1 | h1
        · subst h1; exact hp hdp
        · exact hih ⟨d, h1, hdp⟩
      | some ds2 =>
        have hih := @ih p
        rw [hrd] at hih
        simp only [Option.isSome_some, true_iff] at hih
        simp only [removeFirstDoc, if_neg hp, hrd, Option.map_some',
          Option.isSome_some, true_iff]
        obtain ⟨d, hd, hdp⟩ := hih
        exact ⟨d, List.mem_cons_of_mem _ hd, hdp⟩

/-- Claim C2, main theorem.  After a successful `uploadFile(p, x, h)` on a
store whose document paths are unique (the store invariant), a second
`uploadFile` for the same path and hash is a no-op: it returns the store
unchanged (so the stored document and `metadata.updated` are untouched)
and embeds zero texts — for any embedder, clock value, size and mtime
passed to the second call. -/
theorem c2_upsert_idempotent (s : StoreData) (embed embed2 : Str → List ℚ)
    (now now2 : ℕ) (p x x2 h : Str) (sz mt sz2 mt2 : ℕ)
    (hnd : (s.documents.map (fun d => d.path)).Nodup) :
    uploadFile (uploadFile s embed now p x h sz mt).1 embed2 now2 p x2 h sz2 mt2 =
      ((uploadFile s embed now p x h sz mt).1, 0) := by
  cases huc : uploadCheck s.documents p h with
  | none =>
    rw [uploadFile_of_check_none embed now x sz mt huc]
    exact uploadFile_of_check_none embed2 now2 x2 sz2 mt2 huc
  | some docs =>
    rw [uploadFile_of_check_some embed now x sz mt huc]
    exact uploadFile_of_check_none embed2 now2 x2 sz2 mt2
      (uploadCheck_append_hit _ (uploadCheck_some_no_path hnd huc) rfl rfl)

/-- Claim C2, witness: concrete instance on the empty store. -/
theorem c2_upsert_idempotent_witness :
    uploadFile (uploadFile emptyStore (fun _ => [1]) 1 "a".toList "x".toList
      "h".toList 1 2).1 (fun _ => [1, 2]) 9 "a".toList "x".toList "h".toList 3 4 =
    ((uploadFile emptyStore (fun _ => [1]) 1 "a".toList "x".toList
      "h".toList 1 2).1, 0) :=
  c2_upsert_idempotent emptyStore _ _ 1 9 _ _ _ _ 1 2 3 4 (by simp [emptyStore])

/-- Document and store used by the C9 counterexample. -/
def c9Doc : StoredDocument :=
  ⟨"a-h".toList, "a".toList, "h".toList, "x".toList, [1], 1, 1, 0, []⟩

/-- Store holding only `c9Doc`, last updated at time 0. -/
def c9Store : StoreData := ⟨[c9Doc], ⟨"searchgrep".toList, 0, 0⟩⟩

/-- Claim C9, counterexample.  `deleteFile` on a path that is not in the
store returns without persisting: nothing is written and
`metadata.updated` keeps its old value 0 instead of being refreshed to the
current time 5, contradicting the claim that the store is persisted (with
`metadata.updated` refreshed) when the call returns. -/
theorem c9_counterexample :
    (deleteFile c9Store 5 "q".toList).1 = c9Store ∧
    (deleteFile c9Store 5 "q".toList).2 = false ∧
    c9Store.metadata.updated = 0 := by
  refine ⟨?_, ?_, rfl⟩ <;> rfl

/-- Claim C9, amended theorem.  `deleteFile(p)` removes the first document
with path `p` and persists the store (`saveStore` runs, refreshing
`metadata.updated`) if such a document is present; otherwise it is a no-op
that does not write.  The `isSome` equivalence ties the splice to document
membership. -/
theorem c9_amended (s : StoreData) (now : ℕ) (p : Str) :
    ((∀ d ∈ s.documents, d.path ≠ p) → deleteFile s now p = (s, false)) ∧
    (∀ docs, removeFirstDoc s.documents p = some docs →
      (deleteFile s now p).2 = true ∧
      (deleteFile s now p).1.metadata.updated = now ∧
      (deleteFile s now p).1.documents = docs) ∧
    ((removeFirstDoc s.documents p).isSome ↔ ∃ d ∈ s.documents, d.path = p) := by
  refine ⟨?_, ?_, removeFirstDoc_isSome_iff⟩
  · intro hmiss
    simp [deleteFile, removeFirstDoc_all_miss hmiss]
  · intro docs hsome
    simp [deleteFile, hsome]

/-- Claim C9, witness: the two branches at concrete stores. -/
theorem c9_amended_witness :
    deleteFile c9Store 5 "q".toList = (c9Store, false) ∧
    (deleteFile c9Store 5 "a".toList).2 = true ∧
    (deleteFile c9Store 5 "a".toList).1.metadata.updated = 5 :=
  ⟨(c9_amended c9Store 5 "q".toList).1 (by decide),
   ((c9_amended c9Store 5 "a".toList).2.1 [] (by decide)).1,
   ((c9_amended c9Store 5 "a".toList).2.1 [] (by decide)).2.1⟩

/-- Store of the C4 counterexample: two uploads whose embedders return
vectors of different dimensionality (1 and 2). -/
def c4Store : StoreData :=
  (uploadFile (uploadFile emptyStore (fun _ => [1]) 1 "a".toList "x".toList
    "h1".toList 1 0).1 (fun _ => [1, 2]) 2 "b".toList "y".toList "h2".toList 1 0).1

/-- Claim C4, counterexample.  `uploadFile` performs no dimensionality
check: the second upload, whose embeddings (dimension 2) mismatch the
dimension 1 already in the store, is stored rather than rejected, and the
resulting reachable store holds chunks of dimension 1 and 2 side by side. -/
theorem c4_counterexample :
    c4Store.documents.map (fun d => d.path) = ["a".toList, "b".toList] ∧
    c4Store.documents.map (fun d => d.chunks.map (fun c => c.embedding.length)) =
      [[1], [2]] := by
  refine ⟨?_, ?_⟩ <;> rfl

lemma zipWith_mk_embeddings : ∀ (a : List RawChunk) (g : RawChunk → List ℚ),
    (List.zipWith (fun (c : RawChunk) e => ChunkData.mk c.content e c.lineStart c.lineEnd)
      a (a.map g)).map (fun c => c.embedding) = a.map g := by
  intro a g
  induction a with
  | nil => rfl
  | cons c cs ih => simp [ih]

/-- Claim C4, amended theorem.  The store accepts every upload regardless
of embedding dimensionality: for a fresh path the assembled document is
stored with exactly the vectors the embedder returned, whatever their
dimensions (no rejection exists in the code). -/
theorem c4_amended (s : StoreData) (embed : Str → List ℚ) (now : ℕ)
    (p x h : Str) (sz mt : ℕ) (hp : ∀ d ∈ s.documents, d.path ≠ p) :
    ∃ d ∈ (uploadFile s embed now p x h sz mt).1.documents,
      d.path = p ∧
      d.chunks.map (fun c => c.embedding) =
        (chunkText x 500 100).map (fun c => embed (filePrefixed p c.content)) := by
  rw [uploadFile_of_check_some embed now x sz mt (uploadCheck_all_miss hp)]
  refine ⟨uploadedDoc embed p x h sz mt, by simp, rfl, ?_⟩
  simp only [uploadedDoc]
  rw [List.map_map, zipWith_mk_embeddings]
  rfl

/-- Claim C4, witness: concrete mismatching upload on a one-document
store. -/
theorem c4_amended_witness :
    ∃ d ∈ (uploadFile (uploadFile emptyStore (fun _ => [1]) 1 "a".toList
        "x".toList "h1".toList 1 0).1 (fun _ => [1, 2]) 2 "b".toList "y".toList
        "h2".toList 1 0).1.documents,
      d.path = "b".toList ∧
      d.chunks.map (fun c => c.embedding) =
        (chunkText "y".toList 500 100).map
          (fun c => (fun _ => [(1 : ℚ), 2]) (filePrefixed "b".toList c.content)) :=
  c4_amended _ (fun _ => [1, 2]) 2 "b".toList "y".toList "h2".toList 1 0 (by decide)

/-- Evaluation of the chunker on the empty content: the line fallback
flushes at the (single, empty) last line. -/
lemma chunkText_nil_eval : chunkText [] 500 100 = [⟨[], 1, 1⟩] := by decide

/-- Store holding the document of an empty file, used for C1. -/
def c1Store : StoreData :=
  (uploadFile emptyStore (fun _ => [1]) 5 "f".toList [] "h".toList 0 0).1

/-- Evaluation of `search` on the empty-file store: the document is
returned (dense score 1, no BM25 candidates, `topK = 1`). -/
lemma c1_search_eval :
    (search (fun _ => 1) [] c1Store.documents 1 false).map (fun r => r.path) =
      ["f".toList] := by
  simp [search, searchCandidates, dedupGo, lookupSeen, toSearchResult, c1Store,
    uploadFile, uploadedDoc, emptyStore, uploadCheck, chunkText_nil_eval,
    List.mergeSort]

/-- Claim C1, counterexample.  For an empty file the chunker produces one
chunk (with empty content, lines 1-1), not zero; the persisted document
carries that chunk rather than an empty `chunks` list; and `search` does
return the document (here under a unit dense score). -/
theorem c1_counterexample :
    chunkText [] 500 100 = [⟨[], 1, 1⟩] ∧
    c1Store.documents.map (fun d => d.chunks.length) = [1] ∧
    (search (fun _ => 1) [] c1Store.documents 1 false).map (fun r => r.path) =
      ["f".toList] := by
  refine ⟨chunkText_nil_eval, rfl, c1_search_eval⟩

/-- Claim C1, amended theorem.  An empty file yields exactly one chunk,
whose content is empty and whose line range is 1-1; `uploadFile` persists
a document with that single chunk (for every embedder and metadata), and
the document participates in search like any other (concretely, it is
returned under a unit dense score). -/
theorem c1_amended :
    (∀ (embed : Str → List ℚ) (now : ℕ) (p h : Str) (sz mt : ℕ),
      (uploadFile emptyStore embed now p [] h sz mt).1.documents.map
        (fun d => (d.path, d.lines,
          d.chunks.map (fun c => (c.content, c.lineStart, c.lineEnd)))) =
        [(p, 1, [([], 1, 1)])]) ∧
    (search (fun _ => 1) [] c1Store.documents 1 false).map (fun r => r.path) =
      ["f".toList] := by
  constructor
  · intro embed now p h sz mt
    rw [uploadFile_of_check_some embed now [] sz mt (uploadCheck_all_miss (by simp [emptyStore]))]
    simp [emptyStore, uploadedDoc, chunkText_nil_eval, splitNl]
  · exact c1_search_eval

/-- Claim C1, witness for the amended theorem: concrete embedder. -/
theorem c1_amended_witness :
    (uploadFile emptyStore (fun _ => [1]) 5 "f".toList [] "h".toList 0 0).1.documents.map
      (fun d => (d.path, d.lines,
        d.chunks.map (fun c => (c.content, c.lineStart, c.lineEnd)))) =
      [("f".toList, 1, [([], 1, 1)])] :=
  c1_amended.1 (fun _ => [1]) 5 "f".toList "h".toList 0 0

lemma splitNl_length_pos (s : Str) : 0 < (splitNl s).length := by
  induction s with
  | nil => simp [splitNl]
  | cons c cs ih =>
    simp only [splitNl]
    split
    · simp
    · cases h : splitNl cs with
      | nil => simp
      | cons l ls => simp

lemma chunkByLinesGo_length (cs ov : ℤ) : ∀ (rest : List Str) (cur : List Str)
    (curStart cc : ℤ) (acc : List RawChunk), rest ≠ [] →
    acc.length < (chunkByLinesGo cs ov rest cur curStart cc acc).length := by
  intro rest
  induction rest with
  | nil => intro cur curStart cc acc h; exact absurd rfl h
  | cons line rest' ih =>
    intro cur curStart cc acc _
    by_cases hr : rest' = []
    · subst hr
      simp [chunkByLinesGo]
    · simp only [chunkByLinesGo]
      split
      · refine Nat.lt_of_lt_of_le ?_ (Nat.le_of_lt (ih _ _ _ _ hr))
        simp
      · exact ih _ _ _ _ hr

/-- Claim C10, theorem.  For every input (the empty string included) and
all `chunkSize`/`overlap` parameters the chunker returns at least one
chunk: the code-aware result is returned only when non-empty, and the
line fallback always flushes at the final line. -/
theorem c10_chunker_nonempty (content : Str) (chunkSize overlap : ℤ) :
    0 < (chunkText content chunkSize overlap).length := by
  have hne : splitNl content ≠ [] := by
    have h1 := splitNl_length_pos content
    intro h
    rw [h] at h1
    simp at h1
  simp only [chunkText]
  split
  · assumption
  · simpa [chunkByLines] using
      chunkByLinesGo_length chunkSize overlap (splitNl content) [] 1 0 [] hne

/-! String-level lemmas about `joinNl`, `splitNl` and `jsTrim` used by the
chunker invariants. -/

lemma joinNl_cons_ne {l : Str} {ls : List Str} (h : ls ≠ []) :
    joinNl (l :: ls) = l ++ '\n' :: joinNl ls := by
  cases ls with
  | nil => exact absurd rfl h
  | cons a b => rfl

lemma joinNl_append {xs ys : List Str} (hx : xs ≠ []) (hy : ys ≠ []) :
    joinNl (xs ++ ys) = joinNl xs ++ '\n' :: joinNl ys := by
  induction xs with
  | nil => exact absurd rfl hx
  | cons x xs' ih =>
    cases hxs : xs' with
    | nil =>
      subst hxs
      simp only [List.nil_append, List.singleton_append]
      rw [joinNl_cons_ne hy]
      rfl
    | cons a b =>
      rw [← hxs]
      have hxs' : xs' ≠ [] := by rw [hxs]; simp
      have h1 : xs' ++ ys ≠ [] := by
        intro hcon
        exact hxs' (List.append_eq_nil.mp hcon).1
      rw [List.cons_append, joinNl_cons_ne h1, ih hxs', joinNl_cons_ne hxs']
      simp

lemma length_joinNl_append {xs ys : List Str} (hx : xs ≠ []) (hy : ys ≠ []) :
    (joinNl (xs ++ ys)).length = (joinNl xs).length + (joinNl ys).length + 1 := by
  rw [joinNl_append hx hy]
  simp
  omega

lemma length_joinNl_le_left (xs ys : List Str) :
    (joinNl xs).length ≤ (joinNl (xs ++ ys)).length := by
  rcases eq_or_ne xs [] with h | h
  · simp [h, joinNl]
  · rcases eq_or_ne ys [] with h2 | h2
    · simp [h2]
    · rw [length_joinNl_append h h2]; omega

lemma length_joinNl_le_right (xs ys : List Str) :
    (joinNl ys).length ≤ (joinNl (xs ++ ys)).length := by
  rcases eq_or_ne xs [] with h | h
  · simp [h]
  · rcases eq_or_ne ys [] with h2 | h2
    · simp [h2, joinNl]
    · rw [length_joinNl_append h h2]; omega

lemma mem_joinNl {c : Char} : ∀ {ls : List Str} {l : Str},
    l ∈ ls → c ∈ l → c ∈ joinNl ls := by
  intro ls
  induction ls with
  | nil => intro l h; simp at h
  | cons a as ih =>
    intro l hl hc
    cases has : as with
    | nil =>
      subst has
      rcases List.mem_singleton.mp hl with rfl
      simpa [joinNl] using hc
    | cons b bs =>
      rw [← has]
      have hne : as ≠ [] := by rw [has]; simp
      rw [joinNl_cons_ne hne]
      rcases List.mem_cons.mp hl with rfl | h2
      · exact List.mem_append_left _ hc
      · exact List.mem_append_right _ (List.mem_cons_of_mem _ (ih h2 hc))

lemma jsTrim_eq_nil_iff {l : Str} : jsTrim l = [] ↔ ∀ c ∈ l, jsWhitespace c := by
  unfold jsTrim
  rw [List.reverse_eq_nil_iff, List.dropWhile_eq_nil_iff]
  constructor
  · intro h c hc
    by_cases hw : jsWhitespace c
    · exact hw
    · have hcl : c ∈ List.takeWhile jsWhitespace l ++ List.dropWhile jsWhitespace l := by
        rw [List.takeWhile_append_dropWhile]
        exact hc
      rcases List.mem_append.mp hcl with h1 | h1
      · exact absurd (List.mem_takeWhile_imp h1) hw
      · exact absurd (h c (List.mem_reverse.mpr h1)) hw
  · intro h c hc
    exact h c ((List.dropWhile_sublist _).subset (List.mem_reverse.mp hc))

lemma jsTrim_joinNl_ne {l : Str} {ls : List Str} (hl : l ∈ ls)
    (hne : jsTrim l ≠ []) : jsTrim (joinNl ls) ≠ [] := by
  intro hcon
  apply hne
  rw [jsTrim_eq_nil_iff] at hcon ⊢
  intro c hc
  exact hcon c (mem_joinNl hl hc)

lemma blockStart_trim_ne {line : Str} (h : isCodeBlockStart line = true) :
    jsTrim line ≠ [] := by
  intro hnil
  rw [isCodeBlockStart, hnil] at h
  exact absurd h (by decide)

/-! Invariants of the `chunkByCodeBlocks` loop. -/

/-- Inv1 holds at the top of the loop iteration for 0-based index `i`:
`cur` holds exactly the 1-based lines `curStart .. i` (so
`curStart + cur.length = i + 1`), and the accumulated chunks have 1-based
bounds below `i`, strictly increasing `lineStart`, all before `curStart`. -/
def Inv1 (i : ℕ) (st : CState) : Prop :=
  1 ≤ st.curStart ∧ st.curStart + (st.cur.length : ℤ) = (i : ℤ) + 1 ∧
  (∀ ch ∈ st.acc, 1 ≤ ch.lineStart ∧ ch.lineStart ≤ ch.lineEnd ∧ ch.lineEnd ≤ (i : ℤ)) ∧
  ((st.acc.map (fun c => c.lineStart)).Pairwise (· < ·)) ∧
  (∀ ch ∈ st.acc, ch.lineStart < st.curStart)

/-- Inv2 holds after the current line `i` has been pushed onto `cur`. -/
def Inv2 (i : ℕ) (st : CState) : Prop :=
  1 ≤ st.curStart ∧ st.curStart + (st.cur.length : ℤ) = (i : ℤ) + 2 ∧ st.cur ≠ [] ∧
  (∀ ch ∈ st.acc, 1 ≤ ch.lineStart ∧ ch.lineStart ≤ ch.lineEnd ∧ ch.lineEnd ≤ (i : ℤ) + 1) ∧
  ((st.acc.map (fun c => c.lineStart)).Pairwise (· < ·)) ∧
  (∀ ch ∈ st.acc, ch.lineStart < st.curStart)

lemma inv2_to_inv1 {i : ℕ} {st : CState} (h : Inv2 i st) : Inv1 (i + 1) st := by
  obtain ⟨h1, h2, _, h4, h5, h6⟩ := h
  refine ⟨h1, by push_cast; omega, ?_, h5, h6⟩
  intro ch hch
  have := h4 ch hch
  push_cast
  push_cast at this
  omega

lemma accPush_bounds {acc : List RawChunk} {bound : ℤ} {ch : RawChunk}
    (hacc : ∀ c ∈ acc, 1 ≤ c.lineStart ∧ c.lineStart ≤ c.lineEnd ∧ c.lineEnd ≤ bound)
    (h1 : 1 ≤ ch.lineStart) (h2 : ch.lineStart ≤ ch.lineEnd) (h3 : ch.lineEnd ≤ bound) :
    ∀ c ∈ acc ++ [ch], 1 ≤ c.lineStart ∧ c.lineStart ≤ c.lineEnd ∧ c.lineEnd ≤ bound := by
  intro c hc
  rcases List.mem_append.mp hc with hc | hc
  · exact hacc c hc
  · rcases List.mem_singleton.mp hc with rfl
    exact ⟨h1, h2, h3⟩

lemma accPush_pairwise {acc : List RawChunk} {ch : RawChunk}
    (hpw : (acc.map (fun c => c.lineStart)).Pairwise (· < ·))
    (hlt : ∀ c ∈ acc, c.lineStart < ch.lineStart) :
    ((acc ++ [ch]).map (fun c => c.lineStart)).Pairwise (· < ·) := by
  simp only [List.map_append, List.map_cons, List.map_nil]
  rw [List.pairwise_append]
  refine ⟨hpw, by simp, ?_⟩
  intro a ha b hb
  simp only [List.mem_singleton] at hb
  subst hb
  obtain ⟨c, hc, rfl⟩ := List.mem_map.mp ha
  exact hlt c hc

lemma codeStep1_inv {i : ℕ} {line : Str} {st : CState} (h : Inv1 i st) :
    Inv2 i (pushLine line (codeStep1 i line st)) := by
  obtain ⟨h1, h2, h3, h4, h5⟩ := h
  unfold codeStep1 pushLine
  split_ifs with hc hcur htrim
  · -- block start, non-empty cur, non-blank flush
    unfold Inv2
    dsimp only
    have hlen : 1 ≤ (st.cur.length : ℤ) := by
      have := hcur
      omega
    refine ⟨by omega, by simp; omega, by simp, ?_, ?_, ?_⟩
    · refine accPush_bounds ?_ h1 (by dsimp only; omega) (by dsimp only; omega)
      intro c hc2
      have := h3 c hc2
      exact ⟨this.1, this.2.1, by omega⟩
    · exact accPush_pairwise h4 h5
    · intro c hc2
      rcases List.mem_append.mp hc2 with hc2 | hc2
      · have := h5 c hc2
        omega
      · rcases List.mem_singleton.mp hc2 with rfl
        dsimp only
        omega
  · -- block start, non-empty cur, blank flush skipped
    unfold Inv2
    dsimp only
    simp only [List.append_nil]
    have hlen : 1 ≤ (st.cur.length : ℤ) := by
      have := hcur
      omega
    refine ⟨by omega, by simp; omega, by simp, ?_, h4, ?_⟩
    · intro c hc2
      have := h3 c hc2
      exact ⟨this.1, this.2.1, by omega⟩
    · intro c hc2
      have := h5 c hc2
      omega
  · -- block start, empty cur
    unfold Inv2
    dsimp only
    have hc0 : (st.cur.length : ℤ) = 0 := by
      have : st.cur.length = 0 := by omega
      omega
    refine ⟨h1, by simp; omega, by simp, ?_, h4, ?_⟩
    · intro c hc2
      have := h3 c hc2
      exact ⟨this.1, this.2.1, by omega⟩
    · intro c hc2
      exact h5 c hc2
  · -- not a block start
    unfold Inv2
    dsimp only
    refine ⟨h1, by simp; omega, by simp, ?_, h4, ?_⟩
    · intro c hc2
      have := h3 c hc2
      exact ⟨this.1, this.2.1, by omega⟩
    · intro c hc2
      exact h5 c hc2

lemma codeStep2_inv {i : ℕ} {line : Str} {st : CState} (h : Inv2 i st) :
    Inv1 (i + 1) (codeStep2 i line st) := by
  unfold codeStep2
  split_ifs with hc hcl
  · -- block end: flush cur (which contains the just-pushed line)
    obtain ⟨h1, h2, h3, h4, h5, h6⟩ := h
    unfold Inv1
    dsimp only
    have hlen : 1 ≤ (st.cur.length : ℤ) := by
      have : 0 < st.cur.length := List.length_pos.mpr h3
      omega
    refine ⟨by push_cast; omega, by push_cast; simp; omega, ?_, ?_, ?_⟩
    · refine accPush_bounds ?_ h1 (by dsimp only; omega) (by dsimp only; push_cast; omega)
      intro c hc2
      have := h4 c hc2
      push_cast
      push_cast at this
      exact ⟨this.1, this.2.1, this.2.2⟩
    · exact accPush_pairwise h5 h6
    · intro c hc2
      rcases List.mem_append.mp hc2 with hc2 | hc2
      · have := h6 c hc2
        push_cast
        omega
      · rcases List.mem_singleton.mp hc2 with rfl
        push_cast
        omega
  · exact inv2_to_inv1 h
  · exact inv2_to_inv1 h

lemma codeStep3_inv {sz : ℤ} (hsz : 0 < sz) {i : ℕ} {st : CState}
    (h : Inv1 (i + 1) st) : Inv1 (i + 1) (codeStep3 sz i st) := by
  obtain ⟨h1, h2, h3, h4, h5⟩ := h
  unfold codeStep3
  split_ifs with hc
  · unfold Inv1
    dsimp only
    have hcur : st.cur ≠ [] := by
      intro hcon
      rw [hcon] at hc
      simp only [joinNl, List.length_nil, Nat.cast_zero] at hc
      omega
    have hlen : 1 ≤ (st.cur.length : ℤ) := by
      have : 0 < st.cur.length := List.length_pos.mpr hcur
      omega
    refine ⟨by push_cast; omega, by push_cast; simp; omega, ?_, ?_, ?_⟩
    · refine accPush_bounds ?_ h1 (by dsimp only; omega) (by dsimp only; push_cast; omega)
      intro c hc2
      exact h3 c hc2
    · exact accPush_pairwise h4 h5
    · intro c hc2
      rcases List.mem_append.mp hc2 with hc2 | hc2
      · have := h5 c hc2
        push_cast
        omega
      · rcases List.mem_singleton.mp hc2 with rfl
        push_cast
        omega
  · exact ⟨h1, h2, h3, h4, h5⟩

lemma codeStep_inv {sz : ℤ} (hsz : 0 < sz) {i : ℕ} {line : Str} {st : CState}
    (h : Inv1 i st) : Inv1 (i + 1) (codeStep sz i line st) :=
  codeStep3_inv hsz (codeStep2_inv (codeStep1_inv h))

lemma codeGo_spec {sz : ℤ} (hsz : 0 < sz) : ∀ (rest : List Str) (i : ℕ)
    (st : CState), Inv1 i st →
    (∀ ch ∈ chunkByCodeBlocksGo sz rest i st,
      1 ≤ ch.lineStart ∧ ch.lineStart ≤ ch.lineEnd ∧
      ch.lineEnd ≤ (i : ℤ) + rest.length) ∧
    (((chunkByCodeBlocksGo sz rest i st).map (fun c => c.lineStart)).Pairwise (· < ·)) := by
  intro rest
  induction rest with
  | nil =>
    intro i st h
    obtain ⟨h1, h2, h3, h4, h5⟩ := h
    simp only [chunkByCodeBlocksGo, List.length_nil, Nat.cast_zero, add_zero]
    split_ifs with hc
    · simp only [Bool.and_eq_true, decide_eq_true_eq] at hc
      have hlen : 1 ≤ (st.cur.length : ℤ) := by
        have := hc.1
        omega
      constructor
      · refine accPush_bounds ?_ h1 (by dsimp only; omega) (by dsimp only; omega)
        intro c hc2
        exact h3 c hc2
      · exact accPush_pairwise h4 h5
    · exact ⟨h3, h4⟩
  | cons line rest' ih =>
    intro i st h
    simp only [chunkByCodeBlocksGo]
    have hrec := ih (i + 1) (codeStep sz i line st) (codeStep_inv hsz h)
    constructor
    · intro ch hch
      have hb := hrec.1 ch hch
      refine ⟨hb.1, hb.2.1, ?_⟩
      have := hb.2.2
      simp only [List.length_cons]
      push_cast
      push_cast at this
      omega
    · exact hrec.2

/-! Characterizations of the loop stages, used to trace the control flow of
`chunkByCodeBlocks` in the emptiness and blank-chunk analyses. -/

lemma codeStep1_no_trigger {i : ℕ} {line : Str} {st : CState}
    (h : (isCodeBlockStart line && !st.inBlock) = false) :
    codeStep1 i line st = st := by
  simp [codeStep1, h]

lemma codeStep1_inBlock {i : ℕ} {line : Str} {st : CState}
    (h : st.inBlock = true) : codeStep1 i line st = st :=
  codeStep1_no_trigger (by simp [h])

lemma codeStep1_trigger_inBlock {i : ℕ} {line : Str} {st : CState}
    (h : (isCodeBlockStart line && !st.inBlock) = true) :
    (codeStep1 i line st).inBlock = true := by
  unfold codeStep1
  rw [if_pos h]

lemma codeStep1_acc_sub {i : ℕ} {line : Str} {st : CState}
    {P : RawChunk → Prop} (hacc : ∀ ch ∈ st.acc, P ch)
    (hP : ∀ a b c, 0 < (jsTrim a).length → P ⟨a, b, c⟩) :
    ∀ ch ∈ (codeStep1 i line st).acc, P ch := by
  unfold codeStep1
  split_ifs with hc hcur htrim
  · dsimp only
    intro ch hch
    rcases List.mem_append.mp hch with hch | hch
    · exact hacc ch hch
    · rcases List.mem_singleton.mp hch with rfl
      exact hP _ _ _ htrim
  · dsimp only
    simpa using hacc
  · exact hacc
  · exact hacc

lemma codeStep1_cur_cases (i : ℕ) (line : Str) (st : CState) :
    (codeStep1 i line st).cur = st.cur ∨ (codeStep1 i line st).cur = [] := by
  unfold codeStep1
  split_ifs
  · right; rfl
  · right; rfl
  · left; rfl
  · left; rfl

lemma codeStep2_not_inBlock {i : ℕ} {line : Str} {st : CState}
    (h : st.inBlock = false) : codeStep2 i line st = st := by
  simp [codeStep2, h]

lemma codeStep2_not_blockStart {i : ℕ} {line : Str} {st : CState}
    (h : isCodeBlockStart line = true) : codeStep2 i line st = st := by
  simp [codeStep2, h]

lemma codeStep2_cases (i : ℕ) (line : Str) (st : CState) :
    codeStep2 i line st = st ∨
    (codeStep2 i line st =
        ⟨[], (i : ℤ) + 2, -1, false,
          st.acc ++ [⟨joinNl st.cur, st.curStart, st.curStart + st.cur.length - 1⟩]⟩ ∧
      0 < (jsTrim line).length) := by
  unfold codeStep2
  split_ifs with h1 h2
  · right
    refine ⟨rfl, ?_⟩
    simp only [Bool.and_eq_true, decide_eq_true_eq] at h1
    exact h1.1.1.1.2
  · left; rfl
  · left; rfl

lemma codeStep3_cases (sz : ℤ) (i : ℕ) (st : CState) :
    (codeStep3 sz i st = st ∧ ((joinNl st.cur).length : ℤ) < sz) ∨
    (codeStep3 sz i st =
        ⟨[], (i : ℤ) + 2, -1, false,
          st.acc ++ [⟨joinNl st.cur, st.curStart, st.curStart + st.cur.length - 1⟩]⟩ ∧
      sz ≤ ((joinNl st.cur).length : ℤ)) := by
  unfold codeStep3
  split_ifs with h
  · right; exact ⟨rfl, h⟩
  · left; exact ⟨rfl, by omega⟩

lemma codeStep3_acc (sz : ℤ) (i : ℕ) (st : CState) :
    ∃ ext, (codeStep3 sz i st).acc = st.acc ++ ext := by
  rcases codeStep3_cases sz i st with ⟨h, _⟩ | ⟨h, _⟩
  · exact ⟨[], by rw [h]; simp⟩
  · exact ⟨_, by rw [h]⟩

lemma codeStep3_of_lt {sz : ℤ} {i : ℕ} {st : CState}
    (h : ((joinNl st.cur).length : ℤ) < sz) : codeStep3 sz i st = st := by
  unfold codeStep3
  rw [if_neg (by omega)]

lemma codeStep1_acc (i : ℕ) (line : Str) (st : CState) :
    ∃ ext, (codeStep1 i line st).acc = st.acc ++ ext := by
  unfold codeStep1
  split_ifs
  · exact ⟨_, rfl⟩
  · exact ⟨_, rfl⟩
  · exact ⟨[], by simp⟩
  · exact ⟨[], by simp⟩

lemma codeStep2_acc (i : ℕ) (line : Str) (st : CState) :
    ∃ ext, (codeStep2 i line st).acc = st.acc ++ ext := by
  rcases codeStep2_cases i line st with h | ⟨h, _⟩
  · exact ⟨[], by rw [h]; simp⟩
  · exact ⟨_, by rw [h]⟩

lemma codeStep_acc (sz : ℤ) (i : ℕ) (line : Str) (st : CState) :
    ∃ ext, (codeStep sz i line st).acc = st.acc ++ ext := by
  obtain ⟨e1, h1⟩ := codeStep1_acc i line st
  obtain ⟨e2, h2⟩ := codeStep2_acc i line (pushLine line (codeStep1 i line st))
  obtain ⟨e3, h3⟩ := codeStep3_acc sz i (codeStep2 i line (pushLine line (codeStep1 i line st)))
  unfold codeStep
  rw [h3, h2]
  simp only [pushLine_acc]
  rw [h1]
  exact ⟨(e1 ++ e2) ++ e3, by simp⟩

lemma codeGo_extends (sz : ℤ) : ∀ (rest : List Str) (i : ℕ) (st : CState),
    ∃ ext, chunkByCodeBlocksGo sz rest i st = st.acc ++ ext := by
  intro rest
  induction rest with
  | nil =>
    intro i st
    simp only [chunkByCodeBlocksGo]
    split_ifs
    · exact ⟨_, rfl⟩
    · exact ⟨[], by simp⟩
  | cons line rest' ih =>
    intro i st
    simp only [chunkByCodeBlocksGo]
    obtain ⟨e2, h2⟩ := ih (i + 1) (codeStep sz i line st)
    obtain ⟨e1, h1⟩ := codeStep_acc sz i line st
    exact ⟨e1 ++ e2, by rw [h2, h1]; simp⟩

lemma codeGo_ne_nil_of_acc {sz : ℤ} {rest : List Str} {i : ℕ} {st : CState}
    (h : st.acc ≠ []) : chunkByCodeBlocksGo sz rest i st ≠ [] := by
  obtain ⟨ext, he⟩ := codeGo_extends sz rest i st
  rw [he]
  intro hcon
  exact h (List.append_eq_nil.mp hcon).1

lemma codeGo_inBlock_ne_nil (sz : ℤ) : ∀ (rest : List Str) (i : ℕ) (st : CState),
    st.inBlock = true → (∃ l ∈ st.cur, jsTrim l ≠ []) →
    chunkByCodeBlocksGo sz rest i st ≠ [] := by
  intro rest
  induction rest with
  | nil =>
    intro i st hib hex
    obtain ⟨l, hl, hlt⟩ := hex
    simp only [chunkByCodeBlocksGo]
    have hcur : 0 < st.cur.length := by
      apply List.length_pos.mpr
      intro hcon
      rw [hcon] at hl
      simp at hl
    have htr : 0 < (jsTrim (joinNl st.cur)).length :=
      List.length_pos.mpr (jsTrim_joinNl_ne hl hlt)
    rw [if_pos (by simp [hcur, htr])]
    simp
  | cons line rest' ih =>
    intro i st hib hex
    simp only [chunkByCodeBlocksGo]
    unfold codeStep
    rw [codeStep1_inBlock hib]
    rcases codeStep2_cases i line (pushLine line st) with h2 | ⟨h2, _⟩
    · rw [h2]
      rcases codeStep3_cases sz i (pushLine line st) with ⟨h3, _⟩ | ⟨h3, _⟩
      · rw [h3]
        apply ih
        · exact hib
        · obtain ⟨l, hl, hlt⟩ := hex
          exact ⟨l, by simp [List.mem_append_left _ hl], hlt⟩
      · rw [h3]
        apply codeGo_ne_nil_of_acc
        simp
    · rw [h2]
      obtain ⟨e3, h3⟩ := codeStep3_acc sz i
        (⟨[], (i : ℤ) + 2, -1, false,
          (pushLine line st).acc ++
            [⟨joinNl (pushLine line st).cur, (pushLine line st).curStart,
              (pushLine line st).curStart + (pushLine line st).cur.length - 1⟩]⟩ : CState)
      apply codeGo_ne_nil_of_acc
      rw [h3]
      simp

lemma codeGo_nil_bound (sz : ℤ) : ∀ (rest : List Str) (i : ℕ) (st : CState),
    st.inBlock = false → ((joinNl st.cur).length : ℤ) < sz →
    chunkByCodeBlocksGo sz rest i st = [] →
    ((joinNl (st.cur ++ rest)).length : ℤ) < sz := by
  intro rest
  induction rest with
  | nil =>
    intro i st _ hlt _
    simpa using hlt
  | cons line rest' ih =>
    intro i st hib hlt hnil
    simp only [chunkByCodeBlocksGo] at hnil
    unfold codeStep at hnil
    by_cases hbs : isCodeBlockStart line = true
    · exfalso
      have htrig : (isCodeBlockStart line && !st.inBlock) = true := by
        simp [hbs, hib]
      have hline : jsTrim line ≠ [] := blockStart_trim_ne hbs
      have hib1 : (codeStep1 i line st).inBlock = true := codeStep1_trigger_inBlock htrig
      rw [codeStep2_not_blockStart hbs] at hnil
      rcases codeStep3_cases sz i (pushLine line (codeStep1 i line st)) with
        ⟨h3, _⟩ | ⟨h3, _⟩
      · rw [h3] at hnil
        refine codeGo_inBlock_ne_nil sz rest' (i + 1) _ (by simpa using hib1) ?_ hnil
        exact ⟨line, by simp, hline⟩
      · rw [h3] at hnil
        exact codeGo_ne_nil_of_acc (by simp) hnil
    · have hbs' : isCodeBlockStart line = false := by
        cases hv : isCodeBlockStart line
        · rfl
        · exact absurd hv hbs
      rw [codeStep1_no_trigger (by simp [hbs'])] at hnil
      rw [codeStep2_not_inBlock (by simpa using hib)] at hnil
      rcases codeStep3_cases sz i (pushLine line st) with ⟨h3, hlt2⟩ | ⟨h3, _⟩
      · rw [h3] at hnil
        have hrec := ih (i + 1) (pushLine line st) (by simpa using hib)
          (by simpa using hlt2) hnil
        have heq : (st.cur ++ [line]) ++ rest' = st.cur ++ (line :: rest') := by
          rw [List.append_assoc]
          rfl
        simp only [pushLine_cur] at hrec
        rw [heq] at hrec
        exact hrec
      · rw [h3] at hnil
        exact absurd hnil (codeGo_ne_nil_of_acc (by simp))

lemma codeGo_nonblank (sz : ℤ) : ∀ (rest : List Str) (i : ℕ) (st : CState),
    ((joinNl (st.cur ++ rest)).length : ℤ) < sz →
    (∀ ch ∈ st.acc, 0 < (jsTrim ch.content).length) →
    ∀ ch ∈ chunkByCodeBlocksGo sz rest i st, 0 < (jsTrim ch.content).length := by
  intro rest
  induction rest with
  | nil =>
    intro i st _ hacc
    simp only [chunkByCodeBlocksGo]
    split_ifs with hc
    · simp only [Bool.and_eq_true, decide_eq_true_eq] at hc
      intro ch hch
      rcases List.mem_append.mp hch with hch | hch
      · exact hacc ch hch
      · rcases List.mem_singleton.mp hch with rfl
        exact hc.2
    · exact hacc
  | cons line rest' ih =>
    intro i st hlen hacc
    simp only [chunkByCodeBlocksGo]
    have hpos : (0 : ℤ) < sz := by
      have h0 : (0 : ℤ) ≤ ((joinNl (st.cur ++ line :: rest')).length : ℤ) := by positivity
      omega
    have hacc1 : ∀ ch ∈ (codeStep1 i line st).acc, 0 < (jsTrim ch.content).length :=
      codeStep1_acc_sub hacc (fun a b c h => h)
    have hb2 : ((joinNl (((codeStep1 i line st).cur ++ [line]) ++ rest')).length : ℤ) < sz := by
      rcases codeStep1_cur_cases i line st with hc1 | hc1
      · rw [hc1, List.append_assoc]
        simpa using hlen
      · rw [hc1, List.nil_append]
        calc ((joinNl ([line] ++ rest')).length : ℤ)
            ≤ ((joinNl (st.cur ++ ([line] ++ rest'))).length : ℤ) := by
              exact_mod_cast length_joinNl_le_right _ _
          _ < sz := by simpa using hlen
    have hb1 : ((joinNl ((codeStep1 i line st).cur ++ [line])).length : ℤ) < sz := by
      calc ((joinNl ((codeStep1 i line st).cur ++ [line])).length : ℤ)
          ≤ ((joinNl (((codeStep1 i line st).cur ++ [line]) ++ rest')).length : ℤ) := by
            exact_mod_cast length_joinNl_le_left _ _
        _ < sz := hb2
    unfold codeStep
    rcases codeStep2_cases i line (pushLine line (codeStep1 i line st)) with h2 | ⟨h2, hline⟩
    · rw [h2, codeStep3_of_lt (by simpa using hb1)]
      apply ih
      · simpa using hb2
      · simpa using hacc1
    · rw [h2]
      have hmem : line ∈ (pushLine line (codeStep1 i line st)).cur := by simp
      have hnb : 0 < (jsTrim (joinNl (pushLine line (codeStep1 i line st)).cur)).length := by
        apply List.length_pos.mpr
        apply jsTrim_joinNl_ne hmem
        intro hcon
        rw [hcon] at hline
        simp at hline
      rw [codeStep3_of_lt (by simpa [joinNl] using hpos)]
      apply ih
      · dsimp only
        calc ((joinNl ([] ++ rest')).length : ℤ)
            ≤ ((joinNl (st.cur ++ (line :: rest'))).length : ℤ) := by
              rw [List.nil_append]
              exact_mod_cast Nat.le_trans
                (by simpa using length_joinNl_le_right [line] rest')
                (length_joinNl_le_right st.cur (line :: rest'))
          _ < sz := hlen
      · dsimp only
        intro ch hch
        rcases List.mem_append.mp hch with hch | hch
        · exact hacc1 ch (by simpa using hch)
        · rcases List.mem_singleton.mp hch with rfl
          exact hnb

lemma splitNl_ne_nil (s : Str) : splitNl s ≠ [] := by
  have h := splitNl_length_pos s
  intro hcon
  rw [hcon] at h
  simp at h

lemma joinNl_splitNl (s : Str) : joinNl (splitNl s) = s := by
  induction s with
  | nil => rfl
  | cons c cs ih =>
    simp only [splitNl]
    split_ifs with hc
    · subst hc
      rw [joinNl_cons_ne (splitNl_ne_nil cs), ih]
      rfl
    · cases hs : splitNl cs with
      | nil => exact absurd hs (splitNl_ne_nil cs)
      | cons l ls =>
        cases hls : ls with
        | nil =>
          subst hls
          rw [hs] at ih
          simp only [joinNl] at ih ⊢
          rw [ih]
        | cons a b =>
          rw [← hls]
          have hls' : ls ≠ [] := by rw [hls]; simp
          have h1 : (c :: l) :: ls ≠ [] := by simp
          rw [joinNl_cons_ne hls']
          rw [hs] at ih
          rw [joinNl_cons_ne hls'] at ih
          simp only [List.cons_append]
          rw [ih]

lemma chunkByLinesGo_single (cs ov : ℤ) : ∀ (rest cur : List Str)
    (curStart cc : ℤ) (acc : List RawChunk), rest ≠ [] →
    (cc = if cur = [] then 0 else ((joinNl cur).length : ℤ) + 1) →
    ((joinNl (cur ++ rest)).length : ℤ) < cs →
    chunkByLinesGo cs ov rest cur curStart cc acc =
      acc ++ [⟨joinNl (cur ++ rest), curStart,
        curStart + ((cur ++ rest).length : ℤ) - 1⟩] := by
  intro rest
  induction rest with
  | nil => intro cur curStart cc acc h; exact absurd rfl h
  | cons line rest' ih =>
    intro cur curStart cc acc _ hcc hlen
    have hcc' : cc + line.length + 1 = ((joinNl (cur ++ [line])).length : ℤ) + 1 := by
      rcases eq_or_ne cur [] with hc | hc
      · subst hc
        rw [if_pos rfl] at hcc
        subst hcc
        simp [joinNl]
      · rw [hcc, if_neg hc, length_joinNl_append hc (by simp)]
        simp only [joinNl]
        push_cast
        ring
    by_cases hr : rest' = []
    · subst hr
      simp [chunkByLinesGo]
    · have h1 : ((joinNl ((cur ++ [line]) ++ rest')).length : ℤ) < cs := by
        rw [List.append_assoc]
        simpa using hlen
      have h2 : ((joinNl (cur ++ [line])).length : ℤ) + 1 ≤
          ((joinNl ((cur ++ [line]) ++ rest')).length : ℤ) := by
        rw [length_joinNl_append (by simp) hr]
        push_cast
        omega
      have hlt : cc + line.length + 1 < cs := by omega
      simp only [chunkByLinesGo]
      rw [if_neg (by simp only [Bool.or_eq_true, decide_eq_true_eq]; push_neg; exact ⟨by omega, hr⟩)]
      have hrec := ih (cur ++ [line]) curStart (cc + line.length + 1) acc hr
        (by rw [if_neg (by simp)]; omega) h1
      rw [hrec]
      rw [List.append_assoc]
      rfl

lemma uploadCheck_sublist : ∀ {l : List StoredDocument} {p h : Str}
    {l' : List StoredDocument}, uploadCheck l p h = some l' → l'.Sublist l := by
  intro l
  induction l with
  | nil =>
    intro p h l' hu
    have : [] = l' := by simpa [uploadCheck] using hu
    rw [← this]
  | cons d0 ds ih =>
    intro p h l' hu
    by_cases hp : d0.path = p
    · by_cases hh : d0.hash = h
      · simp [uploadCheck, hp, hh] at hu
      · have : ds = l' := by simpa [uploadCheck, hp, hh] using hu
        rw [← this]
        exact List.sublist_cons_self d0 ds
    · cases hrec : uploadCheck ds p h with
      | none => simp [uploadCheck, hp, hrec] at hu
      | some ds' =>
        have : d0 :: ds' = l' := by simpa [uploadCheck, hp, hrec] using hu
        rw [← this]
        exact List.Sublist.cons₂ d0 (ih hrec)

lemma mem_zipWith_chunk : ∀ {a : List RawChunk} {b : List (List ℚ)} {c : ChunkData},
    c ∈ List.zipWith (fun (c : RawChunk) e => ChunkData.mk c.content e c.lineStart c.lineEnd) a b →
    ∃ t ∈ a, c.content = t.content ∧ c.lineStart = t.lineStart ∧ c.lineEnd = t.lineEnd := by
  intro a
  induction a with
  | nil => intro b c hc; simp at hc
  | cons t ts ih =>
    intro b c hc
    cases b with
    | nil => simp at hc
    | cons e es =>
      simp only [List.zipWith_cons_cons] at hc
      rcases List.mem_cons.mp hc with rfl | hc
      · exact ⟨t, by simp, rfl, rfl, rfl⟩
      · obtain ⟨t', ht', h⟩ := ih hc
        exact ⟨t', List.mem_cons_of_mem _ ht', h⟩

lemma map_lineStart_zipWith : ∀ (a : List RawChunk) (b : List (List ℚ)),
    b.length = a.length →
    (List.zipWith (fun (c : RawChunk) e => ChunkData.mk c.content e c.lineStart c.lineEnd)
      a b).map (fun c => c.lineStart) = a.map (fun c => c.lineStart) := by
  intro a
  induction a with
  | nil => intro b _; simp
  | cons t ts ih =>
    intro b hb
    cases b with
    | nil => simp at hb
    | cons e es =>
      simp only [List.zipWith_cons_cons, List.map_cons]
      rw [ih es (by simpa using hb)]

/-- Line-range correctness of the chunker at the parameters `uploadFile`
uses: every chunk lies in `[1, lineCount]` and chunks are ordered by
`lineStart`. -/
lemma chunkText_bounds (content : Str) :
    (∀ ch ∈ chunkText content 500 100,
      1 ≤ ch.lineStart ∧ ch.lineStart ≤ ch.lineEnd ∧
      ch.lineEnd ≤ ((splitNl content).length : ℤ)) ∧
    ((chunkText content 500 100).map (fun c => c.lineStart)).Pairwise (· ≤ ·) := by
  simp only [chunkText]
  split_ifs with hc
  · have h := codeGo_spec (by norm_num : (0:ℤ) < 500) (splitNl content) 0
      ⟨[], 1, -1, false, []⟩ ⟨by norm_num, by simp, by simp, by simp, by simp⟩
    constructor
    · intro ch hch
      have hb := h.1 ch hch
      exact ⟨hb.1, hb.2.1, by have := hb.2.2; push_cast at this ⊢; omega⟩
    · exact h.2.imp (fun hab => le_of_lt hab)
  · have hnil : chunkByCodeBlocksGo 500 (splitNl content) 0 ⟨[], 1, -1, false, []⟩ = [] := by
      by_cases h0 : chunkByCodeBlocksGo 500 (splitNl content) 0 ⟨[], 1, -1, false, []⟩ = []
      · exact h0
      · exfalso
        apply hc
        have := List.length_pos.mpr h0
        simpa [chunkByCodeBlocks] using this
    have hb := codeGo_nil_bound 500 (splitNl content) 0 ⟨[], 1, -1, false, []⟩ rfl
      (by simp [joinNl]) hnil
    simp only [List.nil_append] at hb
    have hsingle := chunkByLinesGo_single 500 100 (splitNl content) [] 1 0 []
      (splitNl_ne_nil content) (by simp) (by simpa using hb)
    simp only [List.nil_append] at hsingle
    rw [chunkByLines, hsingle]
    have hpos : 1 ≤ ((splitNl content).length : ℤ) := by
      have := splitNl_length_pos content
      omega
    constructor
    · intro ch hch
      rcases List.mem_singleton.mp hch with rfl
      exact ⟨le_refl _, by dsimp only; omega, by dsimp only; omega⟩
    · simp

/-- Claim C8, theorem.  Every document freshly produced by `uploadFile`
has all chunk line ranges inside `[1, lines]` (`lines` being the stored
`content.split("\\n").length`), and its chunks are ordered by `lineStart`. -/
theorem c8_document_line_ranges (s : StoreData) (embed : Str → List ℚ) (now : ℕ)
    (p x h : Str) (sz mt : ℕ) :
    ∀ d ∈ (uploadFile s embed now p x h sz mt).1.documents, d ∉ s.documents →
      (∀ c ∈ d.chunks,
        1 ≤ c.lineStart ∧ c.lineStart ≤ c.lineEnd ∧ c.lineEnd ≤ (d.lines : ℤ)) ∧
      ((d.chunks.map (fun c => c.lineStart)).Pairwise (· ≤ ·)) := by
  intro d hd hnot
  cases huc : uploadCheck s.documents p h with
  | none =>
    rw [uploadFile_of_check_none embed now x sz mt huc] at hd
    exact absurd hd hnot
  | some docs =>
    rw [uploadFile_of_check_some embed now x sz mt huc] at hd
    dsimp only at hd
    rcases List.mem_append.mp hd with hd | hd
    · exact absurd ((uploadCheck_sublist huc).subset hd) hnot
    · rcases List.mem_singleton.mp hd with rfl
      have hb := chunkText_bounds x
      constructor
      · intro c hc
        obtain ⟨t, ht, hc1, hc2, hc3⟩ := mem_zipWith_chunk hc
        have := hb.1 t ht
        rw [hc2, hc3]
        exact ⟨this.1, this.2.1, this.2.2⟩
      · show ((uploadedDoc embed p x h sz mt).chunks.map (fun c => c.lineStart)).Pairwise (· ≤ ·)
        unfold uploadedDoc
        dsimp only
        rw [map_lineStart_zipWith _ _ (by simp)]
        exact hb.2

/-- Claim C8, witness: a concrete two-line upload on the empty store. -/
theorem c8_document_line_ranges_witness :
    (∀ c ∈ (uploadedDoc (fun _ => [1]) "a".toList "x\ny".toList "h".toList 3 4).chunks,
      1 ≤ c.lineStart ∧ c.lineStart ≤ c.lineEnd ∧
      c.lineEnd ≤ ((uploadedDoc (fun _ => [1]) "a".toList "x\ny".toList "h".toList 3 4).lines : ℤ)) ∧
    (((uploadedDoc (fun _ => [1]) "a".toList "x\ny".toList "h".toList 3 4).chunks.map
      (fun c => c.lineStart)).Pairwise (· ≤ ·)) := by
  refine c8_document_line_ranges emptyStore (fun _ => [1]) 0 "a".toList "x\ny".toList
    "h".toList 3 4 _ ?_ ?_
  · rw [uploadFile_of_check_some (fun _ => [1]) 0 "x\ny".toList 3 4
      (uploadCheck_all_miss (by simp [emptyStore]))]
    simp [emptyStore]
  · simp [emptyStore]

/-- Claim C7, counterexample.  A whitespace-only file is chunked (by the
line fallback) into a single chunk whose content is that whitespace — a
chunk consisting only of whitespace characters. -/
theorem c7_counterexample :
    (chunkText "   ".toList 500 100).map (fun c => c.content) = ["   ".toList] ∧
    (∀ ch ∈ "   ".toList, jsWhitespace ch) := by
  refine ⟨by decide, by decide⟩

/-- Claim C7, amended theorem.  For every `chunkSize`/`overlap` and every
input shorter than `chunkSize` that contains a non-whitespace character,
no produced chunk is whitespace-only.  (Whitespace-only input is returned
whole as a single whitespace-only chunk, and an input of at least
`chunkSize` characters can force-flush a whitespace-only chunk, so both
restrictions are necessary.) -/
theorem c7_no_blank_chunks (sz ov : ℤ) (content : Str)
    (hlen : (content.length : ℤ) < sz)
    (hnb : 0 < (jsTrim content).length) :
    ∀ ch ∈ chunkText content sz ov, 0 < (jsTrim ch.content).length := by
  have hjoin : ((joinNl (splitNl content)).length : ℤ) < sz := by
    rw [joinNl_splitNl]
    exact hlen
  simp only [chunkText]
  split_ifs with hc
  · exact codeGo_nonblank sz (splitNl content) 0 ⟨[], 1, -1, false, []⟩
      (by simpa using hjoin) (by simp)
  · have hsingle := chunkByLinesGo_single sz ov (splitNl content) [] 1 0 []
      (splitNl_ne_nil content) (by simp) (by simpa using hjoin)
    simp only [List.nil_append] at hsingle
    rw [chunkByLines, hsingle]
    intro ch hch
    rcases List.mem_singleton.mp hch with rfl
    dsimp only
    rw [joinNl_splitNl]
    exact hnb

/-- Claim C7, witness: the single chunk of a short non-blank input. -/
theorem c7_no_blank_chunks_witness :
    0 < (jsTrim (RawChunk.mk "ab".toList 1 1).content).length :=
  c7_no_blank_chunks 500 100 "ab".toList (by decide) (by decide)
    ⟨"ab".toList, 1, 1⟩ (by decide)

/-! Concrete fusion scenario of claim C5: chunk A is ranked #1 by the
dense list and #3 by BM25, chunk B is #2 dense and #1 BM25 (with a filler
chunk C at BM25 #2). -/

/-- Chunk A of the C5 scenario. -/
def c5ChunkA : ChunkData := ⟨"ca".toList, [], 1, 1⟩

/-- Chunk B of the C5 scenario. -/
def c5ChunkB : ChunkData := ⟨"cb".toList, [], 1, 1⟩

/-- Filler chunk C of the C5 scenario. -/
def c5ChunkC : ChunkData := ⟨"cc".toList, [], 1, 1⟩

/-- Document holding chunk A. -/
def c5DocF : StoredDocument :=
  ⟨"f-h".toList, "f".toList, "h".toList, [], [], 1, 0, 0, [c5ChunkA]⟩

/-- Document holding chunk B. -/
def c5DocG : StoredDocument :=
  ⟨"g-h".toList, "g".toList, "h".toList, [], [], 1, 0, 0, [c5ChunkB]⟩

/-- Document holding chunk C. -/
def c5DocH : StoredDocument :=
  ⟨"x-h".toList, "x".toList, "h".toList, [], [], 1, 0, 0, [c5ChunkC]⟩

/-- Candidate for chunk A (dense rank #1). -/
def c5CandA : Cand := ⟨"f".toList, 9/10, c5ChunkA, c5DocF⟩

/-- Candidate for chunk B (dense rank #2, BM25 rank #1). -/
def c5CandB : Cand := ⟨"g".toList, 8/10, c5ChunkB, c5DocG⟩

/-- Candidate for chunk C (BM25 rank #2). -/
def c5CandC : Cand := ⟨"x".toList, 5/10, c5ChunkC, c5DocH⟩

/-- Claim C5, theorem.  With `k = 60`, fusing the dense list `[A, B]` with
the BM25 list `[B, C, A]` accumulates `1/(k + rank + 1)` per occurrence
under the `(path, lineStart)` key and sorts descending: A receives
`1/61 + 1/63`, B receives `1/62 + 1/61`, and B ranks first. -/
theorem c5_rrf_fusion :
    rrfFusion [c5CandA, c5CandB] [c5CandB, c5CandC, c5CandA] 60 =
      [⟨"g".toList, 1/62 + 1/61, c5ChunkB, c5DocG⟩,
       ⟨"f".toList, 1/61 + 1/63, c5ChunkA, c5DocF⟩,
       ⟨"x".toList, 1/62, c5ChunkC, c5DocH⟩] := by
  simp only [rrfFusion, rrfAdd, rrfAddGo, mapAddScore, keyOf, c5CandA, c5CandB, c5CandC]
  norm_num +decide [List.mergeSort, candLE, c5ChunkA, c5ChunkB, c5ChunkC,
    c5DocF, c5DocG, c5DocH]

/-! Lemmas about the per-path dedup loop and the sorted candidate list
feeding it (claim C3). -/

lemma toSearchResult_path (c : Cand) : (toSearchResult c).path = c.path := rfl

lemma toSearchResult_score (c : Cand) : (toSearchResult c).score = c.score := rfl

lemma candLE_trans : ∀ (a b c : Cand), candLE a b = true → candLE b c = true →
    candLE a c = true := by
  intro a b c
  simp only [candLE, decide_eq_true_eq]
  intro h1 h2
  exact le_trans h2 h1

lemma candLE_total : ∀ (a b : Cand), (candLE a b || candLE b a) = true := by
  intro a b
  simp only [candLE, Bool.or_eq_true, decide_eq_true_eq]
  exact le_total _ _

lemma sorted_mergeSort_cand (l : List Cand) :
    ((l.mergeSort candLE).Pairwise (fun a b => b.score ≤ a.score)) :=
  (List.sorted_mergeSort candLE_trans candLE_total l).imp
    (by intro a b h; simpa [candLE] using h)

lemma searchCandidates_sorted (denseScore : ChunkData → ℚ) (bm25Results : List Cand)
    (documents : List StoredDocument) (topK : ℕ) (hybrid : Bool) :
    (searchCandidates denseScore bm25Results documents topK hybrid).Pairwise
      (fun a b => b.score ≤ a.score) := by
  unfold searchCandidates
  split_ifs with h
  · unfold rrfFusion
    exact sorted_mergeSort_cand _
  · exact List.Pairwise.sublist (List.take_sublist _ _) (sorted_mergeSort_cand _)

lemma lookupSeen_setSeen_self : ∀ (seen : List (Str × ℚ)) (p : Str) (v : ℚ),
    lookupSeen (setSeen seen p v) p = some v := by
  intro seen
  induction seen with
  | nil => intro p v; simp [setSeen, lookupSeen]
  | cons e rest ih =>
    intro p v
    obtain ⟨q, w⟩ := e
    by_cases hq : q = p
    · subst hq
      simp [setSeen, lookupSeen]
    · simp only [setSeen, if_neg hq, lookupSeen]
      rw [List.find?_cons_of_neg _ (by simpa using hq)]
      exact ih p v

lemma lookupSeen_setSeen_other : ∀ (seen : List (Str × ℚ)) (p q : Str) (v : ℚ),
    q ≠ p → lookupSeen (setSeen seen p v) q = lookupSeen seen q := by
  intro seen
  induction seen with
  | nil =>
    intro p q v hq
    have hpq : p ≠ q := fun h => hq h.symm
    simp only [setSeen, lookupSeen]
    rw [List.find?_cons_of_neg _ (by simpa using hpq)]
  | cons e rest ih =>
    intro p q v hq
    obtain ⟨r, w⟩ := e
    by_cases hr : r = p
    · subst hr
      have hrq : r ≠ q := fun h => hq h.symm
      rw [setSeen, if_pos rfl]
      simp only [lookupSeen]
      rw [List.find?_cons_of_neg _ (by simpa using hrq),
        List.find?_cons_of_neg _ (by simpa using hrq)]
    · simp only [setSeen, if_neg hr, lookupSeen]
      by_cases hrq : r = q
      · subst hrq
        rw [List.find?_cons_of_pos _ (by simp), List.find?_cons_of_pos _ (by simp)]
      · rw [List.find?_cons_of_neg _ (by simpa using hrq),
          List.find?_cons_of_neg _ (by simpa using hrq)]
        exact ih p q v hq

lemma lookupSeen_isSome_setSeen (seen : List (Str × ℚ)) (p q : Str) (v : ℚ)
    (h : (lookupSeen seen q).isSome) :
    (lookupSeen (setSeen seen p v) q).isSome := by
  by_cases hq : q = p
  · subst hq
    rw [lookupSeen_setSeen_self]
    rfl
  · rw [lookupSeen_setSeen_other seen p q v hq]
    exact h

lemma removeFirstSR_sublist : ∀ (l : List SearchResult) (p : Str),
    (removeFirstSR l p).Sublist l := by
  intro l
  induction l with
  | nil => intro p; simp [removeFirstSR]
  | cons r rest ih =>
    intro p
    by_cases hp : r.path = p
    · simp only [removeFirstSR, if_pos hp]
      exact List.sublist_cons_self r rest
    · simp only [removeFirstSR, if_neg hp]
      exact List.Sublist.cons₂ r (ih p)

lemma removeFirstSR_no_path : ∀ {l : List SearchResult} {p : Str},
    (l.map (fun u => u.path)).Nodup → ∀ x ∈ removeFirstSR l p, x.path ≠ p := by
  intro l
  induction l with
  | nil => intro p _ x hx; simp [removeFirstSR] at hx
  | cons r rest ih =>
    intro p hnd x hx
    rw [List.map_cons, List.nodup_cons] at hnd
    by_cases hp : r.path = p
    · simp only [removeFirstSR, if_pos hp] at hx
      intro hxp
      apply hnd.1
      rw [hp, ← hxp]
      exact List.mem_map_of_mem _ hx
    · simp only [removeFirstSR, if_neg hp] at hx
      rcases List.mem_cons.mp hx with rfl | hx
      · exact hp
      · exact ih hnd.2 x hx

lemma find?_removeFirstSR_other : ∀ (l : List SearchResult) (p q : Str), q ≠ p →
    (removeFirstSR l p).find? (fun u => u.path == q) =
      l.find? (fun u => u.path == q) := by
  intro l
  induction l with
  | nil => intro p q _; rfl
  | cons r rest ih =>
    intro p q hq
    by_cases hp : r.path = p
    · simp only [removeFirstSR, if_pos hp]
      rw [List.find?_cons_of_neg _ (by simp [hp]; exact fun h => hq h.symm)]
    · simp only [removeFirstSR, if_neg hp]
      by_cases hr : r.path = q
      · rw [List.find?_cons_of_pos _ (by simpa using hr),
          List.find?_cons_of_pos _ (by simpa using hr)]
      · rw [List.find?_cons_of_neg _ (by simpa using hr),
          List.find?_cons_of_neg _ (by simpa using hr)]
        exact ih p q hq

lemma dedup_stop_spec {processed rem : List Cand} {uniq : List SearchResult}
    (h1 : (uniq.map (fun u => u.path)).Nodup)
    (h3 : ∀ u ∈ uniq, ∃ c ∈ processed, toSearchResult c = u)
    (h4 : ∀ u ∈ uniq, ∀ c ∈ processed, c.path = u.path → c.score ≤ u.score)
    (h6 : (processed ++ rem).Pairwise (fun a b => b.score ≤ a.score)) :
    (uniq.map (fun u => u.path)).Nodup ∧
    (∀ r ∈ uniq, ∃ c ∈ processed ++ rem, toSearchResult c = r) ∧
    (∀ r ∈ uniq, ∀ c ∈ processed ++ rem, c.path = r.path → c.score ≤ r.score) := by
  refine ⟨h1, ?_, ?_⟩
  · intro r hr
    obtain ⟨c, hc, hce⟩ := h3 r hr
    exact ⟨c, List.mem_append_left _ hc, hce⟩
  · intro r hr c hc hpath
    rcases List.mem_append.mp hc with hc | hc
    · exact h4 r hr c hc hpath
    · obtain ⟨cp, hcp, hcpe⟩ := h3 r hr
      have hcross := (List.pairwise_append.mp h6).2.2 cp hcp c hc
      have hsc : cp.score = r.score := by rw [← hcpe]; rfl
      exact le_trans hcross (le_of_eq hsc)

lemma dedupGo_spec (topK : ℕ) : ∀ (rem processed : List Cand)
    (seen : List (Str × ℚ)) (uniq : List SearchResult),
    (uniq.map (fun u => u.path)).Nodup →
    (∀ p, lookupSeen seen p =
      (uniq.find? (fun u => u.path == p)).map (fun u => u.score)) →
    (∀ u ∈ uniq, ∃ c ∈ processed, toSearchResult c = u) →
    (∀ u ∈ uniq, ∀ c ∈ processed, c.path = u.path → c.score ≤ u.score) →
    (∀ c ∈ processed, (lookupSeen seen c.path).isSome) →
    ((processed ++ rem).Pairwise (fun a b => b.score ≤ a.score)) →
    ((dedupGo topK rem seen uniq).map (fun u => u.path)).Nodup ∧
    (∀ r ∈ dedupGo topK rem seen uniq, ∃ c ∈ processed ++ rem, toSearchResult c = r) ∧
    (∀ r ∈ dedupGo topK rem seen uniq, ∀ c ∈ processed ++ rem,
      c.path = r.path → c.score ≤ r.score) := by
  intro rem
  induction rem with
  | nil =>
    intro processed seen uniq h1 h2 h3 h4 h5 h6
    simp only [dedupGo]
    exact dedup_stop_spec h1 h3 h4 h6
  | cons c rest ih =>
    intro processed seen uniq h1 h2 h3 h4 h5 h6
    have happ : processed ++ c :: rest = (processed ++ [c]) ++ rest := by simp
    cases hlook : lookupSeen seen c.path with
    | none =>
      have hfind : uniq.find? (fun u => u.path == c.path) = none := by
        have h := h2 c.path
        rw [hlook] at h
        cases hf : uniq.find? (fun u => u.path == c.path) with
        | none => rfl
        | some u => rw [hf] at h; simp at h
      have hnou : ∀ u ∈ uniq, u.path ≠ c.path := by
        intro u hu
        have := List.find?_eq_none.mp hfind u hu
        simpa using this
      have hnop : ∀ cp ∈ processed, cp.path ≠ c.path := by
        intro cp hcp hcon
        have := h5 cp hcp
        rw [hcon, hlook] at this
        simp at this
      have h1' : ((uniq ++ [toSearchResult c]).map (fun u => u.path)).Nodup := by
        rw [List.map_append, List.nodup_append]
        refine ⟨h1, by simp, ?_⟩
        intro a ha
        obtain ⟨u, hu, rfl⟩ := List.mem_map.mp ha
        simp only [List.map_cons, List.map_nil, List.mem_singleton]
        exact fun hcon => hnou u hu hcon
      have h2' : ∀ p, lookupSeen (setSeen seen c.path c.score) p =
          ((uniq ++ [toSearchResult c]).find? (fun u => u.path == p)).map
            (fun u => u.score) := by
        intro p
        by_cases hp : p = c.path
        · subst hp
          rw [lookupSeen_setSeen_self, List.find?_append, hfind]
          simp [toSearchResult]
        · rw [lookupSeen_setSeen_other _ _ _ _ hp, List.find?_append]
          have hone : List.find? (fun u => u.path == p) [toSearchResult c] = none := by
            have hne : ¬((toSearchResult c).path = p) := fun hcon => hp (hcon.symm)
            rw [List.find?_cons_of_neg _ (by simpa using hne)]
            rfl
          rw [hone, Option.or_none]
          exact h2 p
      have h3' : ∀ u ∈ uniq ++ [toSearchResult c],
          ∃ cp ∈ processed ++ [c], toSearchResult cp = u := by
        intro u hu
        rcases List.mem_append.mp hu with hu | hu
        · obtain ⟨cp, hcp, hcpe⟩ := h3 u hu
          exact ⟨cp, List.mem_append_left _ hcp, hcpe⟩
        · rcases List.mem_singleton.mp hu with rfl
          exact ⟨c, by simp, rfl⟩
      have h4' : ∀ u ∈ uniq ++ [toSearchResult c], ∀ cp ∈ processed ++ [c],
          cp.path = u.path → cp.score ≤ u.score := by
        intro u hu cp hcp hpath
        rcases List.mem_append.mp hu with hu1 | hu1
        · rcases List.mem_append.mp hcp with hcp1 | hcp1
          · exact h4 u hu1 cp hcp1 hpath
          · have hc : cp = c := List.mem_singleton.mp hcp1
            rw [hc] at hpath
            exact absurd hpath.symm (hnou u hu1)
        · have huc : u = toSearchResult c := List.mem_singleton.mp hu1
          rcases List.mem_append.mp hcp with hcp1 | hcp1
          · rw [huc] at hpath
            exact absurd (by simpa [toSearchResult] using hpath) (hnop cp hcp1)
          · have hc : cp = c := List.mem_singleton.mp hcp1
            rw [huc, hc, toSearchResult_score]
      have h5' : ∀ cp ∈ processed ++ [c],
          (lookupSeen (setSeen seen c.path c.score) cp.path).isSome := by
        intro cp hcp
        rcases List.mem_append.mp hcp with hcp1 | hcp1
        · exact lookupSeen_isSome_setSeen _ _ _ _ (h5 cp hcp1)
        · have hc : cp = c := List.mem_singleton.mp hcp1
          rw [hc, lookupSeen_setSeen_self]
          rfl
      have h6' : ((processed ++ [c]) ++ rest).Pairwise
          (fun a b => b.score ≤ a.score) := by
        rw [← happ]; exact h6
      simp only [dedupGo, hlook]
      split_ifs with hbreak
      · rw [happ]
        exact dedup_stop_spec h1' h3' h4' h6'
      · rw [happ]
        exact ih (processed ++ [c]) _ _ h1' h2' h3' h4' h5' h6'
    | some s =>
      have h := h2 c.path
      rw [hlook] at h
      obtain ⟨u0, hfind, hscore⟩ := Option.map_eq_some'.mp h.symm
      have hu0mem : u0 ∈ uniq := List.mem_of_find?_eq_some hfind
      have hu0path : u0.path = c.path := by simpa using List.find?_some hfind
      by_cases hlt : s < c.score
      · -- replace branch
        have hrnd : ((removeFirstSR uniq c.path).map (fun u => u.path)).Nodup :=
          ((removeFirstSR_sublist uniq c.path).map _).nodup h1
        have hrno := removeFirstSR_no_path h1 (p := c.path)
        have h1' : (((removeFirstSR uniq c.path) ++ [toSearchResult c]).map
            (fun u => u.path)).Nodup := by
          rw [List.map_append, List.nodup_append]
          refine ⟨hrnd, by simp, ?_⟩
          intro a ha
          obtain ⟨u, hu, rfl⟩ := List.mem_map.mp ha
          simp only [List.map_cons, List.map_nil, List.mem_singleton]
          exact fun hcon => hrno u hu hcon
        have h2' : ∀ p, lookupSeen (setSeen seen c.path c.score) p =
            (((removeFirstSR uniq c.path) ++ [toSearchResult c]).find?
              (fun u => u.path == p)).map (fun u => u.score) := by
          intro p
          by_cases hp : p = c.path
          · subst hp
            have hrn : (removeFirstSR uniq c.path).find?
                (fun u => u.path == c.path) = none := by
              apply List.find?_eq_none.mpr
              intro x hx
              simpa using hrno x hx
            rw [lookupSeen_setSeen_self, List.find?_append, hrn]
            simp [toSearchResult]
          · rw [lookupSeen_setSeen_other _ _ _ _ hp, List.find?_append]
            have hone : List.find? (fun u => u.path == p) [toSearchResult c] = none := by
              have hne : ¬((toSearchResult c).path = p) := fun hcon => hp (hcon.symm)
              rw [List.find?_cons_of_neg _ (by simpa using hne)]
              rfl
            rw [hone, Option.or_none, find?_removeFirstSR_other uniq c.path p hp]
            exact h2 p
        have h3' : ∀ u ∈ (removeFirstSR uniq c.path) ++ [toSearchResult c],
            ∃ cp ∈ processed ++ [c], toSearchResult cp = u := by
          intro u hu
          rcases List.mem_append.mp hu with hu | hu
          · obtain ⟨cp, hcp, hcpe⟩ :=
              h3 u ((removeFirstSR_sublist uniq c.path).subset hu)
            exact ⟨cp, List.mem_append_left _ hcp, hcpe⟩
          · rcases List.mem_singleton.mp hu with rfl
            exact ⟨c, by simp, rfl⟩
        have h4' : ∀ u ∈ (removeFirstSR uniq c.path) ++ [toSearchResult c],
            ∀ cp ∈ processed ++ [c], cp.path = u.path → cp.score ≤ u.score := by
          intro u hu cp hcp hpath
          rcases List.mem_append.mp hu with hu1 | hu1
          · rcases List.mem_append.mp hcp with hcp1 | hcp1
            · exact h4 u ((removeFirstSR_sublist uniq c.path).subset hu1) cp hcp1 hpath
            · have hc : cp = c := List.mem_singleton.mp hcp1
              rw [hc] at hpath
              exact absurd hpath.symm (hrno u hu1)
          · have huc : u = toSearchResult c := List.mem_singleton.mp hu1
            rcases List.mem_append.mp hcp with hcp1 | hcp1
            · have hcpu : cp.path = u0.path := by
                rw [hu0path]
                rw [huc] at hpath
                simpa [toSearchResult] using hpath
              have hle := h4 u0 hu0mem cp hcp1 hcpu
              rw [hscore] at hle
              rw [huc, toSearchResult_score]
              calc cp.score ≤ s := hle
                _ ≤ c.score := le_of_lt hlt
            · have hc : cp = c := List.mem_singleton.mp hcp1
              rw [huc, hc, toSearchResult_score]
        have h5' : ∀ cp ∈ processed ++ [c],
            (lookupSeen (setSeen seen c.path c.score) cp.path).isSome := by
          intro cp hcp
          rcases List.mem_append.mp hcp with hcp1 | hcp1
          · exact lookupSeen_isSome_setSeen _ _ _ _ (h5 cp hcp1)
          · have hc : cp = c := List.mem_singleton.mp hcp1
            rw [hc, lookupSeen_setSeen_self]
            rfl
        have h6' : ((processed ++ [c]) ++ rest).Pairwise
            (fun a b => b.score ≤ a.score) := by
          rw [← happ]; exact h6
        simp only [dedupGo, hlook, if_pos hlt]
        split_ifs with hbreak
        · rw [happ]
          exact dedup_stop_spec h1' h3' h4' h6'
        · rw [happ]
          exact ih (processed ++ [c]) _ _ h1' h2' h3' h4' h5' h6'
      · -- skip branch
        have h3' : ∀ u ∈ uniq, ∃ cp ∈ processed ++ [c], toSearchResult cp = u := by
          intro u hu
          obtain ⟨cp, hcp, hcpe⟩ := h3 u hu
          exact ⟨cp, List.mem_append_left _ hcp, hcpe⟩
        have h4' : ∀ u ∈ uniq, ∀ cp ∈ processed ++ [c],
            cp.path = u.path → cp.score ≤ u.score := by
          intro u hu cp hcp hpath
          rcases List.mem_append.mp hcp with hcp1 | hcp1
          · exact h4 u hu cp hcp1 hpath
          · have hc : cp = c := List.mem_singleton.mp hcp1
            have huu0 : u = u0 := by
              refine List.inj_on_of_nodup_map h1 hu hu0mem ?_
              rw [hu0path, ← hpath, hc]
            rw [hc, huu0, hscore]
            exact le_of_not_lt hlt
        have h5' : ∀ cp ∈ processed ++ [c],
            (lookupSeen seen cp.path).isSome := by
          intro cp hcp
          rcases List.mem_append.mp hcp with hcp1 | hcp1
          · exact h5 cp hcp1
          · have hc : cp = c := List.mem_singleton.mp hcp1
            rw [hc, hlook]
            rfl
        have h6' : ((processed ++ [c]) ++ rest).Pairwise
            (fun a b => b.score ≤ a.score) := by
          rw [← happ]; exact h6
        simp only [dedupGo, hlook, if_neg hlt]
        split_ifs with hbreak
        · rw [happ]
          exact dedup_stop_spec h1 h3' h4' h6'
        · rw [happ]
          exact ih (processed ++ [c]) _ _ h1 h2 h3' h4' h5' h6'

/-- Claim C3, theorem.  For every dense score function, BM25 result list,
document list, `topK` and hybrid flag: `search` returns at most `topK`
results with pairwise-distinct paths; every returned result is one of the
fused candidates; and for each returned path the returned entry carries
the highest fused score among that path\'s candidates. -/
theorem c3_search_dedup (denseScore : ChunkData → ℚ) (bm25Results : List Cand)
    (documents : List StoredDocument) (topK : ℕ) (hybrid : Bool) :
    (search denseScore bm25Results documents topK hybrid).length ≤ topK ∧
    ((search denseScore bm25Results documents topK hybrid).map
      (fun r => r.path)).Nodup ∧
    (∀ r ∈ search denseScore bm25Results documents topK hybrid,
      ∃ c ∈ searchCandidates denseScore bm25Results documents topK hybrid,
        toSearchResult c = r) ∧
    (∀ r ∈ search denseScore bm25Results documents topK hybrid,
      ∀ c ∈ searchCandidates denseScore bm25Results documents topK hybrid,
        c.path = r.path → c.score ≤ r.score) := by
  have hspec := dedupGo_spec topK
    (searchCandidates denseScore bm25Results documents topK hybrid) [] [] []
    (by simp) (by intro p; rfl) (by simp) (by simp) (by simp)
    (by simpa using searchCandidates_sorted denseScore bm25Results documents topK hybrid)
  simp only [List.nil_append] at hspec
  unfold search
  split_ifs with hemp
  · simp
  · have hperm := List.mergeSort_perm
      (dedupGo topK (searchCandidates denseScore bm25Results documents topK hybrid) [] [])
      resLE
    refine ⟨List.length_take_le _ _, ?_, ?_, ?_⟩
    · have hnd := ((hperm.map (fun r => r.path)).symm).nodup hspec.1
      exact ((List.take_sublist _ _).map _).nodup hnd
    · intro r hr
      exact hspec.2.1 r (hperm.subset (List.mem_of_mem_take hr))
    · intro r hr
      exact hspec.2.2 r (hperm.subset (List.mem_of_mem_take hr))

/-- Claim C3, witness: the length and distinct-path bounds at a concrete
store. -/
theorem c3_search_dedup_witness :
    (search (fun _ => 1) [] c1Store.documents 1 false).length ≤ 1 ∧
    ((search (fun _ => 1) [] c1Store.documents 1 false).map
      (fun r => r.path)).Nodup :=
  ⟨(c3_search_dedup (fun _ => 1) [] c1Store.documents 1 false).1,
   (c3_search_dedup (fun _ => 1) [] c1Store.documents 1 false).2.1⟩


/-! Lemmas for the synchronizer round-trip (claim C6). -/

lemma mapSet_append_absent : ∀ (m : List (Str × Str)) (p v : Str),
    (∀ e ∈ m, e.1 ≠ p) → mapSet m p v = m ++ [(p, v)] := by
  intro m
  induction m with
  | nil => intro p v _; rfl
  | cons e rest ih =>
    intro p v hab
    obtain ⟨q, w⟩ := e
    have hq : q ≠ p := hab (q, w) (List.mem_cons_self _ _)
    simp only [mapSet, if_neg hq, List.cons_append]
    exact congrArg (List.cons (q, w)) (ih p v (fun e he => hab e (List.mem_cons_of_mem _ he)))

lemma buildMap_go : ∀ (files : List FileMetadata) (acc : List (Str × Str)),
    (acc.map (fun e => e.1) ++ files.map (fun f => f.path)).Nodup →
    files.foldl (fun m f => mapSet m f.path f.hash) acc =
      acc ++ files.map (fun f => (f.path, f.hash)) := by
  intro files
  induction files with
  | nil => intro acc _; simp
  | cons f fs ih =>
    intro acc hnd
    have hab : ∀ e ∈ acc, e.1 ≠ f.path := by
      intro e he hcon
      have hdisj := (List.nodup_append.mp hnd).2.2
      have h1 : e.1 ∈ acc.map (fun e => e.1) := List.mem_map_of_mem _ he
      have h2 : e.1 ∈ (f :: fs).map (fun g => g.path) := by
        rw [hcon]
        exact List.mem_map_of_mem _ (List.mem_cons_self _ _)
      exact hdisj h1 h2
    have hnd2 : ((acc ++ [(f.path, f.hash)]).map (fun e => e.1) ++
        fs.map (fun g => g.path)).Nodup := by
      simpa [List.append_assoc] using hnd
    rw [List.foldl_cons, mapSet_append_absent acc f.path f.hash hab, ih _ hnd2]
    simp

lemma buildMap_eq {files : List FileMetadata}
    (h : (files.map (fun f => f.path)).Nodup) :
    buildMap files = files.map (fun f => (f.path, f.hash)) := by
  have hgo := buildMap_go files [] (by simpa using h)
  simpa [buildMap] using hgo

lemma listFiles_paths (s : StoreData) :
    (listFiles s).map (fun f => f.path) = s.documents.map (fun d => d.path) := by
  simp [listFiles]

lemma mapGet_store {s : StoreData}
    (h : (s.documents.map (fun d => d.path)).Nodup) (p : Str) :
    mapGet (buildMap (listFiles s)) p = docHash s p := by
  rw [buildMap_eq (by rw [listFiles_paths]; exact h)]
  simp only [mapGet, listFiles, List.map_map, List.find?_map, docHash, Option.map_map]
  rfl

lemma buildMap_keys {s : StoreData}
    (h : (s.documents.map (fun d => d.path)).Nodup) :
    (buildMap (listFiles s)).map (fun e => e.1) =
      s.documents.map (fun d => d.path) := by
  rw [buildMap_eq (by rw [listFiles_paths]; exact h)]
  simp [listFiles]

lemma diffFiles_all_skip (stored : List (Str × Str)) (hash : Str → Str) :
    ∀ L : List FileInfo, (∀ f ∈ L, mapGet stored f.path = some (hash f.content)) →
    diffFiles stored hash L = ([], L.map (fun f => f.path)) := by
  intro L
  induction L with
  | nil => intro _; rfl
  | cons f fs ih =>
    intro hall
    have hf := hall f (List.mem_cons_self _ _)
    have hrest := ih (fun g hg => hall g (List.mem_cons_of_mem _ hg))
    simp [diffFiles, hrest, hf]

lemma diffFiles_upload_sub (stored : List (Str × Str)) (hash : Str → Str) :
    ∀ L : List FileInfo,
    ((diffFiles stored hash L).1.map (fun fh => fh.1.path)).Sublist
      (L.map (fun f => f.path)) := by
  intro L
  induction L with
  | nil => simp [diffFiles]
  | cons f fs ih =>
    simp only [diffFiles]
    cases hm : mapGet stored f.path with
    | some hs =>
      by_cases hh : hs = hash f.content
      · simp only [hm, if_pos hh, List.map_cons]
        exact ih.trans (List.sublist_cons_self _ _)
      · simp only [hm, if_neg hh, List.map_cons]
        exact List.Sublist.cons₂ _ ih
    | none =>
      simp only [hm, List.map_cons]
      exact List.Sublist.cons₂ _ ih

lemma diffFiles_mem_upload (stored : List (Str × Str)) (hash : Str → Str) :
    ∀ L : List FileInfo, ∀ fh ∈ (diffFiles stored hash L).1,
      fh.1 ∈ L ∧ fh.2 = hash fh.1.content := by
  intro L
  induction L with
  | nil => intro fh h; simp [diffFiles] at h
  | cons f fs ih =>
    intro fh hfh
    simp only [diffFiles] at hfh
    cases hm : mapGet stored f.path with
    | some hs =>
      by_cases hh : hs = hash f.content
      · simp only [hm, if_pos hh] at hfh
        obtain ⟨h1, h2⟩ := ih fh hfh
        exact ⟨List.mem_cons_of_mem _ h1, h2⟩
      · simp only [hm, if_neg hh] at hfh
        rcases List.mem_cons.mp hfh with rfl | hfh1
        · exact ⟨List.mem_cons_self _ _, rfl⟩
        · obtain ⟨h1, h2⟩ := ih fh hfh1
          exact ⟨List.mem_cons_of_mem _ h1, h2⟩
    | none =>
      simp only [hm] at hfh
      rcases List.mem_cons.mp hfh with rfl | hfh1
      · exact ⟨List.mem_cons_self _ _, rfl⟩
      · obtain ⟨h1, h2⟩ := ih fh hfh1
        exact ⟨List.mem_cons_of_mem _ h1, h2⟩

lemma diffFiles_cases (stored : List (Str × Str)) (hash : Str → Str) :
    ∀ L : List FileInfo, (L.map (fun f => f.path)).Nodup → ∀ f ∈ L,
      (f, hash f.content) ∈ (diffFiles stored hash L).1 ∨
      (f.path ∉ (diffFiles stored hash L).1.map (fun fh => fh.1.path) ∧
        mapGet stored f.path = some (hash f.content)) := by
  intro L
  induction L with
  | nil => intro _ f hf; simp at hf
  | cons g fs ih =>
    intro hnd f hf
    rw [List.map_cons, List.nodup_cons] at hnd
    rcases List.mem_cons.mp hf with rfl | hf1
    · cases hm : mapGet stored f.path with
      | some hs =>
        by_cases hh : hs = hash f.content
        · right
          constructor
          · simp only [diffFiles, hm, if_pos hh]
            intro hcon
            exact hnd.1 ((diffFiles_upload_sub stored hash fs).subset hcon)
          · rw [hh]
        · left
          simp only [diffFiles, hm, if_neg hh]
          exact List.mem_cons_self _ _
      | none =>
        left
        simp only [diffFiles, hm]
        exact List.mem_cons_self _ _
    · rcases ih hnd.2 f hf1 with hin | ⟨hnot, hget⟩
      · left
        simp only [diffFiles]
        cases hm : mapGet stored g.path with
        | some hs =>
          by_cases hh : hs = hash g.content
          · simpa [hm, if_pos hh] using hin
          · simp only [hm, if_neg hh]
            exact List.mem_cons_of_mem _ hin
        | none =>
          simp only [hm]
          exact List.mem_cons_of_mem _ hin
      · right
        refine ⟨?_, hget⟩
        simp only [diffFiles]
        cases hm : mapGet stored g.path with
        | some hs =>
          by_cases hh : hs = hash g.content
          · simpa [hm, if_pos hh] using hnot
          · simp only [hm, if_neg hh, List.map_cons]
            intro hcon
            rcases List.mem_cons.mp hcon with heq | hcon1
            · have heq2 : f.path = g.path := heq
              apply hnd.1
              rw [← heq2]
              exact List.mem_map_of_mem _ hf1
            · exact hnot hcon1
        | none =>
          simp only [hm, List.map_cons]
          intro hcon
          rcases List.mem_cons.mp hcon with heq | hcon1
          · have heq2 : f.path = g.path := heq
            apply hnd.1
            rw [← heq2]
            exact List.mem_map_of_mem _ hf1
          · exact hnot hcon1

lemma uploadCheck_none_docHash : ∀ {l : List StoredDocument} {p h : Str},
    uploadCheck l p h = none →
    (l.find? (fun d => d.path == p)).map (fun d => d.hash) = some h := by
  intro l
  induction l with
  | nil => intro p h hc; simp [uploadCheck] at hc
  | cons d ds ih =>
    intro p h hc
    by_cases hp : d.path = p
    · rw [List.find?_cons_of_pos _ (by simpa using hp)]
      by_cases hh : d.hash = h
      · simp [hh]
      · simp only [uploadCheck, if_pos hp, if_neg hh] at hc
        exact absurd hc (by simp)
    · rw [List.find?_cons_of_neg _ (by simpa using hp)]
      apply ih
      simp only [uploadCheck, if_neg hp] at hc
      cases hr : uploadCheck ds p h with
      | none => rfl
      | some ds2 => rw [hr] at hc; simp at hc

lemma uploadCheck_find_other : ∀ {l : List StoredDocument} {p h : Str}
    {l' : List StoredDocument} {q : Str}, uploadCheck l p h = some l' → q ≠ p →
    l'.find? (fun d => d.path == q) = l.find? (fun d => d.path == q) := by
  intro l
  induction l with
  | nil =>
    intro p h l' q hc _
    have hl : ([] : List StoredDocument) = l' := by simpa [uploadCheck] using hc
    rw [← hl]
  | cons d ds ih =>
    intro p h l' q hc hq
    by_cases hp : d.path = p
    · by_cases hh : d.hash = h
      · simp [uploadCheck, if_pos hp, if_pos hh] at hc
      · simp only [uploadCheck, if_pos hp, if_neg hh, Option.some.injEq] at hc
        rw [← hc]
        have hdq : d.path ≠ q := fun hcon => hq ((hp.symm.trans hcon).symm)
        rw [List.find?_cons_of_neg _ (by simpa using hdq)]
    · simp only [uploadCheck, if_neg hp] at hc
      cases hr : uploadCheck ds p h with
      | none => rw [hr] at hc; simp at hc
      | some ds2 =>
        rw [hr] at hc
        simp only [Option.some.injEq] at hc
        rw [← hc]
        by_cases hdq : d.path = q
        · rw [List.find?_cons_of_pos _ (by simpa using hdq),
            List.find?_cons_of_pos _ (by simpa using hdq)]
        · rw [List.find?_cons_of_neg _ (by simpa using hdq),
            List.find?_cons_of_neg _ (by simpa using hdq)]
          exact ih hr hq

lemma uploadFile_nodup {s : StoreData} (embed : Str → List ℚ) (now : ℕ)
    (p x h : Str) (sz mt : ℕ)
    (hnd : (s.documents.map (fun d => d.path)).Nodup) :
    (((uploadFile s embed now p x h sz mt).1).documents.map
      (fun d => d.path)).Nodup := by
  cases hc : uploadCheck s.documents p h with
  | none =>
    rw [uploadFile_of_check_none embed now x sz mt hc]
    exact hnd
  | some docs =>
    rw [uploadFile_of_check_some embed now x sz mt hc]
    dsimp only
    rw [List.map_append, List.nodup_append]
    refine ⟨((uploadCheck_sublist hc).map _).nodup hnd, by simp, ?_⟩
    intro a ha
    obtain ⟨d, hd, rfl⟩ := List.mem_map.mp ha
    simp only [List.map_cons, List.map_nil, List.mem_singleton, uploadedDoc_path]
    exact uploadCheck_some_no_path hnd hc d hd

lemma uploadFile_docHash_self {s : StoreData} (embed : Str → List ℚ) (now : ℕ)
    (p x h : Str) (sz mt : ℕ)
    (hnd : (s.documents.map (fun d => d.path)).Nodup) :
    docHash ((uploadFile s embed now p x h sz mt).1) p = some h := by
  cases hc : uploadCheck s.documents p h with
  | none =>
    rw [uploadFile_of_check_none embed now x sz mt hc]
    exact uploadCheck_none_docHash hc
  | some docs =>
    rw [uploadFile_of_check_some embed now x sz mt hc]
    dsimp only [docHash]
    rw [List.find?_append]
    have hnone : docs.find? (fun d => d.path == p) = none := by
      apply List.find?_eq_none.mpr
      intro d hd
      simpa using uploadCheck_some_no_path hnd hc d hd
    rw [hnone, Option.none_or]
    rw [List.find?_cons_of_pos _ (by simp [uploadedDoc_path])]
    simp [uploadedDoc_hash]

lemma uploadFile_docHash_other {s : StoreData} (embed : Str → List ℚ) (now : ℕ)
    (p x h q : Str) (sz mt : ℕ) (hq : q ≠ p) :
    docHash ((uploadFile s embed now p x h sz mt).1) q = docHash s q := by
  cases hc : uploadCheck s.documents p h with
  | none => rw [uploadFile_of_check_none embed now x sz mt hc]
  | some docs =>
    rw [uploadFile_of_check_some embed now x sz mt hc]
    dsimp only [docHash]
    rw [List.find?_append]
    have hone : List.find? (fun d => d.path == q)
        [uploadedDoc embed p x h sz mt] = none := by
      have hne : (uploadedDoc embed p x h sz mt).path ≠ q := by
        rw [uploadedDoc_path]
        exact fun hcon => hq hcon.symm
      rw [List.find?_cons_of_neg _ (by simpa using hne)]
      rfl
    rw [hone, Option.or_none, uploadCheck_find_other hc hq]

lemma removeFirstDoc_sublist : ∀ {l : List StoredDocument} {p : Str}
    {l' : List StoredDocument}, removeFirstDoc l p = some l' → l'.Sublist l := by
  intro l
  induction l with
  | nil => intro p l' hr; simp [removeFirstDoc] at hr
  | cons d ds ih =>
    intro p l' hr
    by_cases hp : d.path = p
    · simp only [removeFirstDoc, if_pos hp, Option.some.injEq] at hr
      rw [← hr]
      exact List.sublist_cons_self _ _
    · simp only [removeFirstDoc, if_neg hp] at hr
      cases hm : removeFirstDoc ds p with
      | none => rw [hm] at hr; simp at hr
      | some ds2 =>
        rw [hm] at hr
        simp only [Option.map_some', Option.some.injEq] at hr
        rw [← hr]
        exact List.Sublist.cons₂ _ (ih hm)

lemma removeFirstDoc_find_other : ∀ {l : List StoredDocument} {p : Str}
    {l' : List StoredDocument} {q : Str}, removeFirstDoc l p = some l' → q ≠ p →
    l'.find? (fun d => d.path == q) = l.find? (fun d => d.path == q) := by
  intro l
  induction l with
  | nil => intro p l' q hr _; simp [removeFirstDoc] at hr
  | cons d ds ih =>
    intro p l' q hr hq
    by_cases hp : d.path = p
    · simp only [removeFirstDoc, if_pos hp, Option.some.injEq] at hr
      rw [← hr]
      have hdq : d.path ≠ q := fun hcon => hq ((hp.symm.trans hcon).symm)
      rw [List.find?_cons_of_neg _ (by simpa using hdq)]
    · simp only [removeFirstDoc, if_neg hp] at hr
      cases hm : removeFirstDoc ds p with
      | none => rw [hm] at hr; simp at hr
      | some ds2 =>
        rw [hm] at hr
        simp only [Option.map_some', Option.some.injEq] at hr
        rw [← hr]
        by_cases hdq : d.path = q
        · rw [List.find?_cons_of_pos _ (by simpa using hdq),
            List.find?_cons_of_pos _ (by simpa using hdq)]
        · rw [List.find?_cons_of_neg _ (by simpa using hdq),
            List.find?_cons_of_neg _ (by simpa using hdq)]
          exact ih hm hq

lemma removeFirstDoc_no_path : ∀ {l : List StoredDocument} {p : Str}
    {l' : List StoredDocument}, (l.map (fun d => d.path)).Nodup →
    removeFirstDoc l p = some l' → ∀ d ∈ l', d.path ≠ p := by
  intro l
  induction l with
  | nil => intro p l' _ hr; simp [removeFirstDoc] at hr
  | cons d0 ds ih =>
    intro p l' hnd hr d hd
    rw [List.map_cons, List.nodup_cons] at hnd
    by_cases hp : d0.path = p
    · simp only [removeFirstDoc, if_pos hp, Option.some.injEq] at hr
      rw [← hr] at hd
      intro hcon
      apply hnd.1
      rw [hp, ← hcon]
      exact List.mem_map_of_mem _ hd
    · simp only [removeFirstDoc, if_neg hp] at hr
      cases hm : removeFirstDoc ds p with
      | none => rw [hm] at hr; simp at hr
      | some ds2 =>
        rw [hm] at hr
        simp only [Option.map_some', Option.some.injEq] at hr
        rw [← hr] at hd
        rcases List.mem_cons.mp hd with heq | hd1
        · rw [heq]
          exact hp
        · exact ih hnd.2 hm d hd1

lemma deleteFile_documents_sublist (s : StoreData) (now : ℕ) (p : Str) :
    ((deleteFile s now p).1).documents.Sublist s.documents := by
  cases hm : removeFirstDoc s.documents p with
  | none =>
    simp only [deleteFile, hm]
    exact List.Sublist.refl _
  | some docs =>
    simp only [deleteFile, hm]
    exact removeFirstDoc_sublist hm

lemma deleteFile_docHash_other (s : StoreData) (now : ℕ) (p q : Str)
    (hq : q ≠ p) :
    docHash ((deleteFile s now p).1) q = docHash s q := by
  cases hm : removeFirstDoc s.documents p with
  | none => simp only [deleteFile, hm]
  | some docs =>
    simp only [deleteFile, hm, docHash]
    rw [removeFirstDoc_find_other hm hq]

lemma deleteFile_docHash_self (s : StoreData) (now : ℕ) (p : Str)
    (hnd : (s.documents.map (fun d => d.path)).Nodup) :
    docHash ((deleteFile s now p).1) p = none := by
  cases hm : removeFirstDoc s.documents p with
  | none =>
    have hnone : ∀ d ∈ s.documents, d.path ≠ p := by
      intro d hd hcon
      have hsome : (removeFirstDoc s.documents p).isSome :=
        removeFirstDoc_isSome_iff.mpr ⟨d, hd, hcon⟩
      rw [hm] at hsome
      simp at hsome
    simp only [deleteFile, hm, docHash]
    rw [List.find?_eq_none.mpr (fun d hd => by simpa using hnone d hd)]
    rfl
  | some docs =>
    simp only [deleteFile, hm, docHash]
    rw [List.find?_eq_none.mpr
      (fun d hd => by simpa using removeFirstDoc_no_path hnd hm d hd)]
    rfl

lemma syncUpload_fold (embed : Str → List ℚ) (now : ℕ) :
    ∀ (U : List (FileInfo × Str)) (st : StoreData),
    (st.documents.map (fun d => d.path)).Nodup →
    ((U.map (fun fh => fh.1.path)).Nodup) →
    (((U.foldl (fun t fh =>
        (uploadFile t embed now fh.1.path fh.1.content fh.2 fh.1.size
          fh.1.lastModified).1) st).documents.map (fun d => d.path)).Nodup) ∧
    (∀ fh ∈ U, docHash (U.foldl (fun t fh =>
        (uploadFile t embed now fh.1.path fh.1.content fh.2 fh.1.size
          fh.1.lastModified).1) st) fh.1.path = some fh.2) ∧
    (∀ q, q ∉ U.map (fun fh => fh.1.path) →
      docHash (U.foldl (fun t fh =>
        (uploadFile t embed now fh.1.path fh.1.content fh.2 fh.1.size
          fh.1.lastModified).1) st) q = docHash st q) := by
  intro U
  induction U with
  | nil =>
    intro st hnd _
    exact ⟨hnd, by simp, fun q _ => rfl⟩
  | cons fh U ih =>
    intro st hnd hUnd
    rw [List.map_cons, List.nodup_cons] at hUnd
    have hnd1 : ((((uploadFile st embed now fh.1.path fh.1.content fh.2
        fh.1.size fh.1.lastModified).1).documents.map (fun d => d.path)).Nodup) :=
      uploadFile_nodup embed now _ _ _ _ _ hnd
    obtain ⟨ihnd, ihmem, ihpres⟩ := ih _ hnd1 hUnd.2
    rw [List.foldl_cons]
    refine ⟨ihnd, ?_, ?_⟩
    · intro gh hgh
      rcases List.mem_cons.mp hgh with heq | hgh1
      · rw [heq, ihpres fh.1.path hUnd.1]
        exact uploadFile_docHash_self embed now _ _ _ _ _ hnd
      · exact ihmem gh hgh1
    · intro q hq
      rw [List.map_cons, List.mem_cons] at hq
      push_neg at hq
      rw [ihpres q hq.2]
      exact uploadFile_docHash_other embed now _ _ _ q _ _ hq.1

lemma syncDelete_fold (now : ℕ) :
    ∀ (D : List Str) (st : StoreData),
    (st.documents.map (fun d => d.path)).Nodup →
    (((D.foldl (fun t p => (deleteFile t now p).1) st).documents.map
        (fun d => d.path)).Nodup) ∧
    ((D.foldl (fun t p => (deleteFile t now p).1) st).documents.Sublist
      st.documents) ∧
    (∀ q, q ∉ D →
      docHash (D.foldl (fun t p => (deleteFile t now p).1) st) q = docHash st q) ∧
    (∀ p ∈ D, docHash (D.foldl (fun t p => (deleteFile t now p).1) st) p = none) := by
  intro D
  induction D with
  | nil =>
    intro st hnd
    exact ⟨hnd, List.Sublist.refl _, fun q _ => rfl, by simp⟩
  | cons p D ih =>
    intro st hnd
    have hnd1 : ((((deleteFile st now p).1).documents.map (fun d => d.path)).Nodup) :=
      ((deleteFile_documents_sublist st now p).map _).nodup hnd
    obtain ⟨ihnd, ihsub, ihpres, ihdel⟩ := ih _ hnd1
    rw [List.foldl_cons]
    refine ⟨ihnd, ihsub.trans (deleteFile_documents_sublist st now p), ?_, ?_⟩
    · intro q hq
      rw [List.mem_cons] at hq
      push_neg at hq
      rw [ihpres q hq.2]
      exact deleteFile_docHash_other st now p q hq.1
    · intro p2 hp2
      rcases List.mem_cons.mp hp2 with heq | hp21
      · rw [heq]
        by_cases hpD : p ∈ D
        · exact ihdel p hpD
        · rw [ihpres p hpD]
          exact deleteFile_docHash_self st now p hnd
      · exact ihdel p2 hp21

lemma docHash_ne_none_of_mem {s : StoreData} {d : StoredDocument}
    (hd : d ∈ s.documents) : docHash s d.path ≠ none := by
  intro hcon
  have hmiss := List.find?_eq_none.mp (Option.map_eq_none'.mp hcon) d hd
  simp at hmiss

lemma syncFiles_invariants (s : StoreData) (hash : Str → Str)
    (embed : Str → List ℚ) (now : ℕ) (L : List FileInfo)
    (hs : (s.documents.map (fun d => d.path)).Nodup)
    (hL : (L.map (fun f => f.path)).Nodup) :
    (((syncFiles s hash embed now L).1).documents.map (fun d => d.path)).Nodup ∧
    (∀ f ∈ L, docHash (syncFiles s hash embed now L).1 f.path =
      some (hash f.content)) ∧
    (∀ p, p ∉ L.map (fun f => f.path) →
      docHash (syncFiles s hash embed now L).1 p = none) := by
  have hUnd : (((diffFiles (buildMap (listFiles s)) hash L).1.map
      (fun fh => fh.1.path)).Nodup) :=
    (diffFiles_upload_sub (buildMap (listFiles s)) hash L).nodup hL
  obtain ⟨hAnd, hAmem, hApres⟩ :=
    syncUpload_fold embed now (diffFiles (buildMap (listFiles s)) hash L).1
      s hs hUnd
  obtain ⟨hBnd, hBsub, hBpres, hBdel⟩ :=
    syncDelete_fold now
      (((buildMap (listFiles s)).map (fun e => e.1)).filter
        (fun p => !((L.map (fun f => f.path)).contains p)))
      ((diffFiles (buildMap (listFiles s)) hash L).1.foldl (fun t fh =>
        (uploadFile t embed now fh.1.path fh.1.content fh.2 fh.1.size
          fh.1.lastModified).1) s)
      hAnd
  have hDnot : ∀ g ∈ L, g.path ∉
      ((buildMap (listFiles s)).map (fun e => e.1)).filter
        (fun p => !((L.map (fun f => f.path)).contains p)) := by
    intro g hg hcon
    have hflt := (List.mem_filter.mp hcon).2
    have hmemL : g.path ∈ L.map (fun f => f.path) := List.mem_map_of_mem _ hg
    simp [List.elem_iff, hmemL] at hflt
  refine ⟨hBnd, ?_, ?_⟩
  · intro f hf
    rcases diffFiles_cases (buildMap (listFiles s)) hash L hL f hf with hin |
        hskip
    · exact (hBpres f.path (hDnot f hf)).trans (hAmem (f, hash f.content) hin)
    · refine (hBpres f.path (hDnot f hf)).trans
        ((hApres f.path hskip.1).trans ?_)
      rw [← mapGet_store hs f.path]
      exact hskip.2
  · intro p hp
    by_cases hpD : p ∈ ((buildMap (listFiles s)).map (fun e => e.1)).filter
        (fun q => !((L.map (fun f => f.path)).contains q))
    · exact hBdel p hpD
    · have hpU : p ∉ (diffFiles (buildMap (listFiles s)) hash L).1.map
          (fun fh => fh.1.path) :=
        fun hcon =>
          hp ((diffFiles_upload_sub (buildMap (listFiles s)) hash L).subset hcon)
      refine (hBpres p hpD).trans ((hApres p hpU).trans ?_)
      cases hdh : docHash s p with
      | none => rfl
      | some w =>
        exfalso
        apply hpD
        rw [List.mem_filter]
        constructor
        · rw [buildMap_keys hs]
          have hfs : (s.documents.find? (fun d => d.path == p)).isSome := by
            unfold docHash at hdh
            cases hfind : s.documents.find? (fun d => d.path == p) with
            | none => rw [hfind] at hdh; simp at hdh
            | some d => simp [hfind]
          obtain ⟨d, hdmem, hdp⟩ := List.find?_isSome.mp hfs
          have hdpath : d.path = p := by simpa using hdp
          rw [← hdpath]
          exact List.mem_map_of_mem _ hdmem
        · simp only [Bool.not_eq_eq_eq_not, Bool.not_true]
          simpa [List.elem_iff] using hp

/-- Claim C6, theorem.  For every store whose document paths are distinct
and every file tree with distinct paths: syncing, then syncing the
unchanged tree again, makes the second run upload nothing, delete nothing
and skip every local file. -/
theorem c6_sync_idempotent (s : StoreData) (hash : Str → Str)
    (embed : Str → List ℚ) (now now2 : ℕ) (L : List FileInfo)
    (hs : (s.documents.map (fun d => d.path)).Nodup)
    (hL : (L.map (fun f => f.path)).Nodup) :
    (syncFiles ((syncFiles s hash embed now L).1) hash embed now2 L).2 =
      ⟨0, 0, L.length⟩ := by
  obtain ⟨hnd, hmem, hnone⟩ := syncFiles_invariants s hash embed now L hs hL
  set t := (syncFiles s hash embed now L).1 with ht
  have hdiff2 : diffFiles (buildMap (listFiles t)) hash L =
      ([], L.map (fun f => f.path)) :=
    diffFiles_all_skip _ hash L
      (fun f hf => by rw [mapGet_store hnd f.path]; exact hmem f hf)
  have hdel2 : ((buildMap (listFiles t)).map (fun e => e.1)).filter
      (fun p => !((L.map (fun f => f.path)).contains p)) = [] := by
    rw [buildMap_keys hnd]
    apply List.filter_eq_nil_iff.mpr
    intro p hpmem
    obtain ⟨d, hdmem, hdp⟩ := List.mem_map.mp hpmem
    have hmemL : p ∈ L.map (fun f => f.path) := by
      by_contra hcon
      have hzero := hnone p hcon
      rw [← hdp] at hzero
      exact docHash_ne_none_of_mem hdmem hzero
    simp [List.elem_iff, hmemL]
  simp only [syncFiles, hdiff2, hdel2]
  simp

/-- Claim C6, witness: re-syncing an unchanged one-file tree over the
empty store reports 0 uploads, 0 deletions and 1 skip. -/
theorem c6_sync_idempotent_witness :
    (syncFiles ((syncFiles emptyStore (fun _ => ['h']) (fun _ => [1]) 0
        [⟨['a'], ['x'], 1, 2⟩]).1) (fun _ => ['h']) (fun _ => [1]) 3
        [⟨['a'], ['x'], 1, 2⟩]).2 = ⟨0, 0, 1⟩ :=
  c6_sync_idempotent emptyStore (fun _ => ['h']) (fun _ => [1]) 0 3
    [⟨['a'], ['x'], 1, 2⟩] (by decide) (by decide)

end Sgrep
